import Mathlib

/-!
# Verification development for `champlooein/kit`

Shallow embedding of

* `retry/retry.go`   : the retry loop `retryer.Do`;
* `retry/backoff.go` : the backoff family (zero, stop, constant, exponential);
* `goalong/concurrency.go`, `goalong/goroutine.go` : `GoWaitsWithLimit`.

Conventions.

* `time.Duration` and `int` are 64 bit two's complement integers.  They are
  embedded as `Int`; every arithmetic operation of the source that can leave
  the range is followed by `wrap64`.
* A `float64` is an `F64.Value`: a finite value, embedded as the rational
  number it denotes, one of the two infinities, or NaN.  On finite values every
  floating point operation of the source is the exact operation followed by
  `F64.round` (round to nearest, ties to even, 53 bit significand), with
  overflow to an infinity.
* Everything `retryer.Do` reads from its surroundings (the results of the
  operation, the readings of the clock, the outcome of each `select`) is an
  explicit input, see `Env`.
-/

namespace Retry

/-! ## Machine integers -/

/-- Two's complement reduction of an integer to the range of `int64`. -/
def wrap64 (x : Int) : Int := (x + 2 ^ 63) % 2 ^ 64 - 2 ^ 63

/-! ## Errors -/

/-- Go `error` values that `retryer.Do` can see.  `wrap` is an error whose
`Unwrap` method returns `inner` (for instance one built by `fmt.Errorf` with
the `%w` verb); `other` is any leaf error that is none of the sentinels. -/
inductive Err where
  | PermanentError
  | MaxRetryTimeError
  | MaxElapsedTimeError
  | noBackoff
  | ctxErr (n : Nat)
  | other (n : Nat)
  | wrap (n : Nat) (inner : Err)
  deriving DecidableEq, Repr

/-- The test `errors.Is(err, PermanentError)`: walk the `Unwrap` chain and
compare each element with the sentinel. -/
def Err.isPermanent : Err → Bool
  | .PermanentError => true
  | .wrap _ inner => inner.isPermanent
  | _ => false

/-! ## The retryer -/

/-- The `retryer` struct.  `backoff` is an interface value: `none` is the nil
interface, `some b` holds the state `b` of the backoff object behind it. -/
structure retryer (σ : Type) where
  maxRetryTime : Int
  maxElapsedTime : Int
  backoff : Option σ

/-- Everything one call of `Do` reads from outside.
* `fn i` is what the `i`-th invocation of the operation returns (counting
  from 0); `none` is the nil error.
* `since i` is the value of `time.Since(startTime)` when it is evaluated after
  the `i`-th invocation.
* `done i` is the outcome of the `select` that follows the `i`-th invocation:
  `none` when the timer channel is received from, `some e` when `ctx.Done()`
  is received from and `ctx.Err()` is `e`. -/
structure Env where
  fn : Nat → Option Err
  since : Nat → Int
  done : Nat → Option Err

/-- What one call of `Do` did: the error returned (`none` is nil), the number
of invocations of the operation, the durations obtained from `backoff.Next()`
in order, the final value of the local `retryTime`, and the state in which the
backoff object is left. -/
structure Outcome (σ : Type) where
  err : Option Err
  calls : Nat
  waits : List Int
  retryTime : Int
  backoff : σ

/-- Number of calls of `backoff.Next()` made by the call of `Do`. -/
def Outcome.nexts {σ : Type} (o : Outcome σ) : Nat := o.waits.length

/-- The part of an outcome that does not mention the backoff values: error
returned, number of invocations, number of calls of `Next()`, final
`retryTime`. -/
def Outcome.summary {σ : Type} (o : Outcome σ) : Option Err × Nat × Nat × Int :=
  (o.err, o.calls, o.nexts, o.retryTime)

/-- The condition `r.maxRetryTime > 0 && retryTime+1 > r.maxRetryTime`. -/
def attemptsExhausted {σ : Type} (r : retryer σ) (retryTime : Int) : Bool :=
  decide (r.maxRetryTime > 0) && decide (wrap64 (retryTime + 1) > r.maxRetryTime)

/-- The condition `time.Since(startTime) > r.maxElapsedTime`. -/
def timeExhausted {σ : Type} (r : retryer σ) (elapsed : Int) : Bool :=
  decide (elapsed > r.maxElapsedTime)

/-- The `for` loop of `retryer.Do`.  `calls`, `waits`, `retryTime` and `b` are
the number of invocations made so far, the waits obtained so far, the local
counter and the state of the backoff object at the head of the loop.  Each
unit of `fuel` pays for one iteration; `none` means the fuel ran out. -/
def DoLoop {σ : Type} (next : σ → Int × σ) (r : retryer σ) (env : Env) :
    Nat → Nat → List Int → Int → σ → Option (Outcome σ)
  | 0, _, _, _, _ => none
  | fuel + 1, calls, waits, retryTime, b =>
    match env.fn calls with
    | none => some ⟨none, calls + 1, waits, retryTime, b⟩
    | some err =>
      if err.isPermanent then
        some ⟨some err, calls + 1, waits, retryTime, b⟩
      else if attemptsExhausted r retryTime then
        some ⟨some Err.MaxRetryTimeError, calls + 1, waits, retryTime, b⟩
      else if timeExhausted r (env.since calls) then
        some ⟨some Err.MaxElapsedTimeError, calls + 1, waits, retryTime, b⟩
      else
        match env.done calls with
        | some ctxErr =>
          some ⟨some ctxErr, calls + 1, waits ++ [(next b).1], retryTime, (next b).2⟩
        | none =>
          DoLoop next r env fuel (calls + 1) (waits ++ [(next b).1])
            (wrap64 (retryTime + 1)) (next b).2

/-- The method `retryer.Do`.  With a nil backoff it returns the configuration
error at once; the outcome then carries no backoff state, hence the `Option`
in the last field. -/
def Do {σ : Type} (next : σ → Int × σ) (r : retryer σ) (env : Env) (fuel : Nat) :
    Option (Outcome (Option σ)) :=
  match r.backoff with
  | none => some ⟨some Err.noBackoff, 0, [], 0, none⟩
  | some b =>
    (DoLoop next r env fuel 0 [] 0 b).map
      fun o => ⟨o.err, o.calls, o.waits, o.retryTime, some o.backoff⟩

/-- Two successive calls of `Do` on one retryer, both seeing `env`: the
second call finds the backoff object in the state in which the first call left
it.  The result is the pair of the two outcomes. -/
def DoTwice {σ : Type} (next : σ → Int × σ) (r : retryer σ) (env : Env) (fuel : Nat) :
    Option (Outcome (Option σ) × Outcome (Option σ)) :=
  match Do next r env fuel with
  | none => none
  | some first =>
    match Do next { r with backoff := first.backoff } env fuel with
    | none => none
    | some second => some (first, second)

/-! ## Floating point

A finite `float64` is embedded as the rational number it denotes (the two
zeros are not told apart: the source neither divides nor prints).  The
functions `round`, `ofInt`, `mul`, `add`, `sub` and `toInt64` below work on
finite values; `Value` adds the two infinities and NaN, which a caller can
hand to `WithMultiplier` and `WithRandomizationFactor` and which a product can
produce, and the operations on `Value` are the ones the source is embedded
with. -/

namespace F64

/-- Binary logarithm of a positive natural number, rounded down; `fuel` bounds
the number of halvings. -/
def log2Aux : Nat → Nat → Nat
  | 0, _ => 0
  | fuel + 1, n => if n < 2 then 0 else log2Aux fuel (n / 2) + 1

/-- Binary logarithm of a positive natural number, rounded down. -/
def natLog2 (n : Nat) : Nat := log2Aux n n

/-- Binary exponent of a non-zero rational `x`: the integer `e` with
`2 ^ e ≤ |x| < 2 ^ (e + 1)`. -/
def ilog2 (x : ℚ) : Int :=
  if x.den * 2 ^ natLog2 x.num.natAbs ≤ x.num.natAbs * 2 ^ natLog2 x.den then
    (natLog2 x.num.natAbs : Int) - (natLog2 x.den : Int)
  else
    (natLog2 x.num.natAbs : Int) - (natLog2 x.den : Int) - 1

/-- Rounding of a rational to an integer: to nearest, ties to even. -/
def rne (x : ℚ) : Int :=
  if x - ⌊x⌋ < 1 / 2 then ⌊x⌋
  else if 1 / 2 < x - ⌊x⌋ then ⌊x⌋ + 1
  else if ⌊x⌋ % 2 = 0 then ⌊x⌋ else ⌊x⌋ + 1

/-- Spacing of the `float64` grid at `x`: 53 significant bits, and the fixed
spacing `2 ^ (-1074)` in the subnormal range. -/
def ulp (x : ℚ) : ℚ := (2 : ℚ) ^ (max (ilog2 x) (-1022) - 52)

/-- Rounding of an exact result to `float64` (round to nearest, ties to
even), the rounding applied by every `float64` operation. -/
def round (x : ℚ) : ℚ := if x = 0 then 0 else (rne (x / ulp x) : ℚ) * ulp x

/-- The conversion `float64(i)` of a 64 bit integer. -/
def ofInt (i : Int) : ℚ := round (i : ℚ)

/-- The `float64` product `a * b`. -/
def mul (a b : ℚ) : ℚ := round (a * b)

/-- The `float64` sum `a + b`. -/
def add (a b : ℚ) : ℚ := round (a + b)

/-- The `float64` difference `a - b`. -/
def sub (a b : ℚ) : ℚ := round (a - b)

/-- The conversions `time.Duration(x)` and `int(x)` of a `float64`: the
fraction is discarded (truncation towards zero).  A value outside the range of
`int64` has no result fixed by the language; it is given the result of the
amd64 conversion instruction, the least `int64`. -/
def toInt64 (x : ℚ) : Int :=
  if -2 ^ 63 ≤ (if 0 ≤ x then ⌊x⌋ else ⌈x⌉) ∧ (if 0 ≤ x then ⌊x⌋ else ⌈x⌉) < 2 ^ 63 then
    (if 0 ≤ x then ⌊x⌋ else ⌈x⌉)
  else -2 ^ 63

/-- A `float64` value: finite, an infinity, or NaN. -/
inductive Value where
  | fin (q : ℚ)
  | posInf
  | negInf
  | nan
  deriving DecidableEq

/-- A numeric literal as a `float64` value. -/
instance (n : Nat) : OfNat Value n := ⟨Value.fin n⟩

/-- The rational a finite value denotes, and 0 for an infinity or NaN. -/
def Value.toRat : Value → ℚ
  | .fin q => q
  | _ => 0

/-- A `float64` value read as a rational where one is expected. -/
instance : Coe Value ℚ := ⟨Value.toRat⟩

/-- A rounded result as a value: a magnitude of `2 ^ 1024` or more is past the
largest finite `float64` and becomes an infinity. -/
def Value.ofRounded (r : ℚ) : Value :=
  if 2 ^ 1024 ≤ r then .posInf else if r ≤ -2 ^ 1024 then .negInf else .fin r

/-- The conversion `float64(i)` of a 64 bit integer, as a value. -/
def Value.ofInt (i : Int) : Value := .fin (F64.ofInt i)

/-- An infinity with the sign of the finite factor `a`, and NaN when `a` is
zero: the product of `a` and positive infinity. -/
def Value.infTimes (a : ℚ) : Value :=
  if a = 0 then .nan else if 0 < a then .posInf else .negInf

/-- The negation `-x`. -/
def Value.neg : Value → Value
  | .fin q => .fin (-q)
  | .posInf => .negInf
  | .negInf => .posInf
  | .nan => .nan

/-- The `float64` product `x * y`. -/
def Value.mul : Value → Value → Value
  | .nan, _ => .nan
  | _, .nan => .nan
  | .fin a, .fin b => Value.ofRounded (F64.mul a b)
  | .fin a, .posInf => Value.infTimes a
  | .fin a, .negInf => (Value.infTimes a).neg
  | .posInf, .fin b => Value.infTimes b
  | .negInf, .fin b => (Value.infTimes b).neg
  | .posInf, .posInf => .posInf
  | .posInf, .negInf => .negInf
  | .negInf, .posInf => .negInf
  | .negInf, .negInf => .posInf

/-- The `float64` sum `x + y`. -/
def Value.add : Value → Value → Value
  | .nan, _ => .nan
  | _, .nan => .nan
  | .fin a, .fin b => Value.ofRounded (F64.add a b)
  | .fin _, .posInf => .posInf
  | .fin _, .negInf => .negInf
  | .posInf, .fin _ => .posInf
  | .negInf, .fin _ => .negInf
  | .posInf, .posInf => .posInf
  | .posInf, .negInf => .nan
  | .negInf, .posInf => .nan
  | .negInf, .negInf => .negInf

/-- The `float64` difference `x - y`. -/
def Value.sub : Value → Value → Value
  | .nan, _ => .nan
  | _, .nan => .nan
  | .fin a, .fin b => Value.ofRounded (F64.sub a b)
  | x, y => Value.add x y.neg

/-- The comparison `x < y`; false when either side is NaN. -/
def Value.lt : Value → Value → Bool
  | .nan, _ => false
  | _, .nan => false
  | .fin a, .fin b => decide (a < b)
  | .negInf, .negInf => false
  | .negInf, _ => true
  | _, .negInf => false
  | .posInf, _ => false
  | .fin _, .posInf => true

/-- The comparison `x <= y`; false when either side is NaN. -/
def Value.le : Value → Value → Bool
  | .nan, _ => false
  | _, .nan => false
  | .fin a, .fin b => decide (a ≤ b)
  | .negInf, _ => true
  | _, .posInf => true
  | .posInf, _ => false
  | .fin _, .negInf => false

/-- The conversions `time.Duration(x)` and `int(x)` of a `float64` value; an
infinity and NaN are outside the range of `int64` and get the result of the
amd64 conversion instruction as well. -/
def Value.toInt64 : Value → Int
  | .fin q => F64.toInt64 q
  | _ => -2 ^ 63

end F64

/-! ## Backoffs -/

/-- One millisecond, in nanoseconds (`time.Millisecond`). -/
def Millisecond : Int := 1000000

/-- One second, in nanoseconds (`time.Second`). -/
def Second : Int := 1000000000

/-- The struct `exponentialBackoff`. -/
structure exponentialBackoff where
  baseInterval : Int
  maxInterval : Int
  randomizationFactor : F64.Value
  multiplier : F64.Value
  currentInterval : Int

/-- The package variable `defaultExBaseInterval`. -/
def defaultExBaseInterval : Int := 500 * Millisecond

/-- The package variable `defaultExMaxInterval`. -/
def defaultExMaxInterval : Int := 60 * Second

/-- The package variable `defaultExRandomizationFactor`. -/
def defaultExRandomizationFactor : F64.Value := F64.Value.fin (1 / 2)

/-- The package variable `defaultExMultiplier`. -/
def defaultExMultiplier : F64.Value := 2

/-- The four option constructors, each with its argument. -/
inductive exponentialBackoffOption where
  | WithBaseInterval (interval : Int)
  | WithMaxInterval (interval : Int)
  | WithRandomizationFactor (randomizationFactor : F64.Value)
  | WithMultiplier (multiplier : F64.Value)

/-- The effect of an option on the struct it is applied to. -/
def exponentialBackoffOption.apply :
    exponentialBackoffOption → exponentialBackoff → exponentialBackoff
  | .WithBaseInterval interval, backoff =>
    { backoff with baseInterval := if interval < 0 then defaultExBaseInterval else interval }
  | .WithMaxInterval interval, backoff =>
    { backoff with maxInterval := if interval < 0 then 0 else interval }
  | .WithRandomizationFactor randomizationFactor, backoff =>
    let f1 : F64.Value := if randomizationFactor.lt 0 then 0 else randomizationFactor
    let f2 : F64.Value :=
      if F64.Value.le 1 f1 then f1.sub (F64.Value.ofInt f1.toInt64) else f1
    { backoff with randomizationFactor := f2 }
  | .WithMultiplier multiplier, backoff =>
    { backoff with multiplier := if multiplier.le 0 then defaultExMultiplier else multiplier }

/-- The constructor `NewExponentialBackoff`. -/
def NewExponentialBackoff (opts : List exponentialBackoffOption) : exponentialBackoff :=
  let v := opts.foldl (fun v opt => opt.apply v)
    { baseInterval := defaultExBaseInterval
      maxInterval := defaultExMaxInterval
      randomizationFactor := defaultExRandomizationFactor
      multiplier := defaultExMultiplier
      currentInterval := 0 }
  { v with currentInterval := v.baseInterval }

/-- The method `getRandomizationInterval`; `draw` is the value returned by
`rand.Float64()`, which is finite. -/
def exponentialBackoff.getRandomizationInterval (b : exponentialBackoff) (draw : ℚ) : Int :=
  let delta := ((F64.Value.ofInt b.currentInterval).mul b.randomizationFactor).toInt64
  let minRandomizationInterval := wrap64 (b.currentInterval - delta)
  let maxRandomizationInterval := wrap64 (b.currentInterval + delta)
  ((F64.Value.ofInt minRandomizationInterval).add
    ((F64.Value.fin draw).mul
      (F64.Value.ofInt
        (wrap64 (wrap64 (maxRandomizationInterval - minRandomizationInterval) + 1))))).toInt64

/-- The method `incrementCurrentInterval`; the test `interval > float64(max)`
is `float64(max) < interval`. -/
def exponentialBackoff.incrementCurrentInterval (b : exponentialBackoff) : exponentialBackoff :=
  if (F64.Value.ofInt b.maxInterval).lt ((F64.Value.ofInt b.currentInterval).mul b.multiplier) then
    { b with currentInterval := b.maxInterval }
  else
    { b with currentInterval := ((F64.Value.ofInt b.currentInterval).mul b.multiplier).toInt64 }

/-- The method `exponentialBackoff.Next`: the returned value is computed
first, the deferred `incrementCurrentInterval` runs after it. -/
def exponentialBackoff.Next (b : exponentialBackoff) (draw : ℚ) : Int × exponentialBackoff :=
  (b.getRandomizationInterval draw, b.incrementCurrentInterval)

/-- The state of the backoff after the calls of `Next()` that consume the
given draws, in order. -/
def exponentialBackoff.afterNexts (b : exponentialBackoff) : List ℚ → exponentialBackoff
  | [] => b
  | draw :: draws => (b.Next draw).2.afterNexts draws

/-- The values returned by the calls of `Next()` that consume the given
draws, in order. -/
def exponentialBackoff.nextValues (b : exponentialBackoff) : List ℚ → List Int
  | [] => []
  | draw :: draws => (b.Next draw).1 :: (b.Next draw).2.nextValues draws

/-- An exponential backoff behind the `Backoff` interface, as `retryer.Do`
uses it: the state is the struct together with the number of draws taken from
the random source so far, `draws i` being the `i`-th value the source
yields. -/
def exponentialNext (draws : Nat → ℚ) (st : exponentialBackoff × Nat) :
    Int × (exponentialBackoff × Nat) :=
  ((st.1.Next (draws st.2)).1, ((st.1.Next (draws st.2)).2, st.2 + 1))

/-! ### Stateless backoffs -/

/-- `zeroBackoff.Next`. -/
def zeroBackoff.Next (b : Unit) : Int × Unit := (0, b)

/-- The package variable `stop`. -/
def stop : Int := -1

/-- `stopBackoff.Next`. -/
def stopBackoff.Next (b : Unit) : Int × Unit := (stop, b)

/-- The struct `constantBackoff`. -/
structure constantBackoff where
  interval : Int

/-- The package variable `defaultConstantInterval`. -/
def defaultConstantInterval : Int := 500 * Millisecond

/-- The constructor `NewConstantBackoff`. -/
def NewConstantBackoff (d : Int) : constantBackoff :=
  ⟨if d < 0 then defaultConstantInterval else d⟩

/-- `constantBackoff.Next`. -/
def constantBackoff.Next (b : constantBackoff) : Int × constantBackoff := (b.interval, b)

/-- The values returned by `n` successive calls of `Next()` on a constant
backoff. -/
def constantBackoff.nextValues (b : constantBackoff) : Nat → List Int
  | 0 => []
  | n + 1 => b.Next.1 :: b.Next.2.nextValues n

/-! ### Package-level constructors of retryers -/

/-- The package-level function `WithMaxRetryTime`: the other fields keep their
zero values, the backoff is the nil interface. -/
def WithMaxRetryTime {σ : Type} (n : Int) : retryer σ := ⟨n, 0, none⟩

/-- The package-level function `WithMaxElapsedTime`. -/
def WithMaxElapsedTime {σ : Type} (n : Int) : retryer σ := ⟨0, n, none⟩

/-- The package-level function `WithBackoff`, for a non-nil backoff in state
`backoff`. -/
def WithBackoff {σ : Type} (backoff : σ) : retryer σ := ⟨0, 0, some backoff⟩

/-! ### The cursor rule in the words of the specification -/

/-- The value the specification gives for the cursor after a call of
`Next()`: `min(currentInterval * multiplier, maxInterval)`, in exact
arithmetic. -/
def specAdvance (currentInterval : Int) (multiplier : ℚ) (maxInterval : Int) : ℚ :=
  min ((currentInterval : ℚ) * multiplier) (maxInterval : ℚ)

/-! ### Sample inputs -/

/-- An operation that fails with a non-permanent error on every call, a clock
that does not advance, and waits that the timer always wins. -/
def alwaysFails : Env := ⟨fun _ => some (Err.other 0), fun _ => 0, fun _ => none⟩

/-- The largest `int` and the largest `time.Duration`: `math.MaxInt64`. -/
def MaxInt64 : Int := 2 ^ 63 - 1

/-- An operation that fails with a non-permanent error on every call, a clock
that advances by one second per attempt and stays at the largest
`time.Duration` once it has reached it, as `time.Since` does, and waits that
the timer always wins. -/
def alwaysFailsTicking : Env :=
  ⟨fun _ => some (Err.other 0), fun i => min ((i : Int) * Second) MaxInt64, fun _ => none⟩

end Retry

namespace Goalong

/-! ## `GoWaitsWithLimit`

The calling goroutine and the goroutines started by `Go` are interleaved one
atomic action at a time; a schedule is the list of the goroutines chosen. -/

/-- What a task function does when it is called: return, panic, never come
back, or be the nil function (the call itself then panics). -/
inductive TaskKind where
  | returns
  | panics
  | blocks
  | nilFunc
  deriving DecidableEq, Repr

/-- Where a goroutine started by `Go` stands.
* `ready`: created, the statement `f()` not yet reached;
* `running`: inside `f()`;
* `finished p`: `f()` is over (`p` tells whether by a panic), the deferred
  function has not yet called `wg.Done()`;
* `doneWg p`: `wg.Done()` has been called, the send `ch <- struct\x7b\x7d\x7b\x7d`
  has not yet happened;
* `exited`: the goroutine is over. -/
inductive Phase where
  | ready
  | running
  | finished (panicking : Bool)
  | doneWg (panicking : Bool)
  | exited
  deriving DecidableEq, Repr

/-- A goroutine started by `Go`: its phase, how many times the statement
`f()` was executed, and how many error records its `recover` handler wrote. -/
structure Task where
  phase : Phase
  runs : Nat
  logs : Nat
  deriving DecidableEq, Repr

/-- Program counter of the goroutine that called `GoWaitsWithLimit`.
* `init`: before `make`;
* `fill i`: in the first loop, `i` permits sent;
* `acquire j`: in the second loop, before the receive `<-ch` for `fns[j]`;
* `spawn j`: the permit is taken, before `Go` for `fns[j]`;
* `wait`: at `wg.Wait()`;
* `closing`: `wg.Wait()` has returned, before the deferred `close(ch)`;
* `returned`: the call has returned;
* `panicked`: the call has panicked. -/
inductive MainPc where
  | init
  | fill (i : Nat)
  | acquire (j : Nat)
  | spawn (j : Nat)
  | wait
  | closing
  | returned
  | panicked
  deriving DecidableEq, Repr

/-- State of one call: the caller, the channel `ch` (number of buffered
elements, whether closed), the counter of `wg`, and the goroutines started so
far, the `k`-th of them running `fns[k]`. -/
structure State where
  pc : MainPc
  buf : Nat
  closed : Bool
  wg : Int
  tasks : List Task
  deriving DecidableEq, Repr

/-- The arguments `limit` and `fns` of a call. -/
structure Call where
  limit : Int
  fns : List TaskKind

/-- A goroutine that a scheduler can pick: the caller, or the `k`-th started. -/
inductive Choice where
  | main
  | task (k : Nat)
  deriving DecidableEq, Repr

/-- State at the entry of `GoWaitsWithLimit`. -/
def State.init : State := ⟨MainPc.init, 0, false, 0, []⟩

/-- One action of the caller; `none` when it is blocked or over. -/
def stepMain (c : Call) (s : State) : Option State :=
  match s.pc with
  | .init =>
    if c.limit < 0 then some { s with pc := .panicked }
    else some { s with pc := .fill 0, wg := s.wg + c.fns.length }
  | .fill i =>
    if (i : Int) < c.limit then
      if s.closed then some { s with pc := .panicked }
      else if (s.buf : Int) < c.limit then some { s with pc := .fill (i + 1), buf := s.buf + 1 }
      else none
    else some { s with pc := .acquire 0 }
  | .acquire j =>
    if j < c.fns.length then
      if 0 < s.buf then some { s with pc := .spawn j, buf := s.buf - 1 }
      else if s.closed then some { s with pc := .spawn j }
      else none
    else some { s with pc := .wait }
  | .spawn j => some { s with pc := .acquire (j + 1), tasks := s.tasks ++ [⟨.ready, 0, 0⟩] }
  | .wait => if s.wg = 0 then some { s with pc := .closing } else none
  | .closing =>
    if s.closed then some { s with pc := .panicked }
    else some { s with pc := .returned, closed := true }
  | .returned => none
  | .panicked => none

/-- One action of the `k`-th started goroutine, which runs a task of kind
`kind` and is at `t`; `none` when it is blocked or over.  A panic that is
still in flight when the goroutine ends is caught by the handler of
`goWithRecover`, which writes one error record. -/
def stepTask (c : Call) (s : State) (k : Nat) (kind : TaskKind) (t : Task) : Option State :=
  match t.phase with
  | .ready =>
    match kind with
    | .nilFunc => some { s with tasks := s.tasks.set k { t with phase := .finished true, runs := t.runs + 1 } }
    | _ => some { s with tasks := s.tasks.set k { t with phase := .running, runs := t.runs + 1 } }
  | .running =>
    match kind with
    | .returns => some { s with tasks := s.tasks.set k { t with phase := .finished false } }
    | .panics => some { s with tasks := s.tasks.set k { t with phase := .finished true } }
    | _ => none
  | .finished p =>
    if s.wg - 1 < 0 then
      some { s with wg := s.wg - 1, tasks := s.tasks.set k { t with phase := .exited, logs := t.logs + 1 } }
    else
      some { s with wg := s.wg - 1, tasks := s.tasks.set k { t with phase := .doneWg p } }
  | .doneWg p =>
    if s.closed then
      some { s with tasks := s.tasks.set k { t with phase := .exited, logs := t.logs + 1 } }
    else if (s.buf : Int) < c.limit then
      some { s with buf := s.buf + 1,
                    tasks := s.tasks.set k { t with phase := .exited, logs := t.logs + (if p then 1 else 0) } }
    else none
  | .exited => none

/-- One action of the chosen goroutine; `none` when it cannot move. -/
def step (c : Call) (s : State) : Choice → Option State
  | .main => stepMain c s
  | .task k =>
    match c.fns[k]?, s.tasks[k]? with
    | some kind, some t => stepTask c s k kind t
    | _, _ => none

/-- The state a schedule leads to; a chosen goroutine that cannot move is
skipped. -/
def exec (c : Call) : List Choice → State → State
  | [], s => s
  | ch :: rest, s =>
    match step c s ch with
    | some s' => exec c rest s'
    | none => exec c rest s

/-- The goroutine holds a permit: it was started and has not sent yet. -/
def Task.holding (t : Task) : Nat :=
  match t.phase with
  | .exited => 0
  | _ => 1

/-- The goroutine is inside its task function. -/
def Task.executing (t : Task) : Nat :=
  match t.phase with
  | .running => 1
  | _ => 0

/-- The goroutine has not yet called `wg.Done()`. -/
def Task.pending (t : Task) : Nat :=
  match t.phase with
  | .ready => 1
  | .running => 1
  | .finished _ => 1
  | _ => 0

/-- Sum of a count over the goroutines started so far. -/
def total (f : Task → Nat) (ts : List Task) : Nat := (ts.map f).sum

/-- Number of permits taken from `ch` and not sent back: one per goroutine
that holds one, and the one in the hands of the caller between its receive
and the `Go` that follows. -/
def State.held (s : State) : Nat :=
  total Task.holding s.tasks + (match s.pc with | .spawn _ => 1 | _ => 0)

/-- Number of task functions being executed. -/
def State.executing (s : State) : Nat := total Task.executing s.tasks

/-- The pool is in service: the first loop is over and `ch` is not closed. -/
def State.inService (s : State) : Bool :=
  !s.closed && (match s.pc with | .init => false | .fill _ => false | .panicked => false | _ => true)

/-- Number of goroutines the caller has started when it is at `pc`. -/
def started (c : Call) : MainPc → Nat
  | .acquire j => j
  | .spawn j => j
  | .wait => c.fns.length
  | .closing => c.fns.length
  | .returned => c.fns.length
  | _ => 0

/-- The invariant of a call with `0 ≤ limit`: it relates the program counter of
the caller, the content of `ch`, the counter of `wg` and the phases of the
goroutines started. -/
structure Inv (c : Call) (s : State) : Prop where
  notPanicked : s.pc ≠ MainPc.panicked
  length_eq : s.tasks.length = started c s.pc
  started_le : started c s.pc ≤ c.fns.length
  spawn_lt : ∀ j, s.pc = MainPc.spawn j → j < c.fns.length
  closed_iff : s.closed = true ↔ s.pc = MainPc.returned
  wg_init : s.pc = MainPc.init → s.wg = 0 ∧ s.buf = 0
  wg_eq : s.pc ≠ MainPc.init →
    s.wg = ((c.fns.length - s.tasks.length : Nat) : Int) + (total Task.pending s.tasks : Nat)
  wg_zero : s.pc = MainPc.closing ∨ s.pc = MainPc.returned → s.wg = 0
  fill_buf : ∀ i, s.pc = MainPc.fill i → s.buf = i ∧ (i : Int) ≤ c.limit
  permits_eq : s.inService = true → ((s.held + s.buf : Nat) : Int) = c.limit
  permits_le : s.pc = MainPc.returned → ((s.held + s.buf : Nat) : Int) ≤ c.limit
  runs_eq : ∀ t, t ∈ s.tasks → t.runs = if t.phase = Phase.ready then 0 else 1

/-! ### Sample inputs -/

/-- A call with `limit = 2` and three tasks: one that returns, one that
panics, and the nil function. -/
def sampleCall : Call := ⟨2, [TaskKind.returns, TaskKind.panics, TaskKind.nilFunc]⟩

/-- A schedule for `sampleCall` that stops when the first two tasks are both
inside their task functions. -/
def sampleScheduleTwoRunning : List Choice :=
  [Choice.main, Choice.main, Choice.main, Choice.main, Choice.main, Choice.main,
    Choice.task 0, Choice.main, Choice.main, Choice.task 1]

/-- A schedule for `sampleCall` that runs the first two tasks to their end,
then the third up to `wg.Done()`, and then lets the caller return. -/
def sampleScheduleReturned : List Choice :=
  [Choice.main, Choice.main, Choice.main, Choice.main, Choice.main, Choice.main,
    Choice.task 0, Choice.task 0, Choice.task 0, Choice.task 0,
    Choice.main, Choice.main,
    Choice.task 1, Choice.task 1, Choice.task 1, Choice.task 1,
    Choice.main, Choice.main, Choice.main,
    Choice.task 2, Choice.task 2,
    Choice.main, Choice.main]

/-- No goroutine is inside the nil function: a goroutine whose task is nil goes
from `ready` straight to `finished`. -/
def RunningNotNil (c : Call) (s : State) : Prop :=
  ∀ (k : Nat) (t : Task), s.tasks[k]? = some t → t.phase = Phase.running →
    c.fns[k]? ≠ some TaskKind.nilFunc

/-- Upper bound on the number of actions a started goroutine still has. -/
def Task.rank (t : Task) : Nat :=
  match t.phase with
  | .ready => 4
  | .running => 3
  | .finished _ => 2
  | .doneWg _ => 1
  | .exited => 0

/-- Upper bound on the number of actions the caller still has, counting four
more for each goroutine it has yet to start. -/
def rankMain (c : Call) : MainPc → Nat
  | .init => c.limit.toNat + 6 * c.fns.length + 5
  | .fill i => (c.limit.toNat - i) + 6 * c.fns.length + 4
  | .acquire j => 6 * (c.fns.length - j) + 3
  | .spawn j => 6 * (c.fns.length - j) + 2
  | .wait => 2
  | .closing => 1
  | .returned => 0
  | .panicked => 0

/-- Upper bound on the number of actions left in a state. -/
def State.rank (c : Call) (s : State) : Nat := rankMain c s.pc + total Task.rank s.tasks

/-- Where a call with `limit ≤ 0` can be: at its entry; panicked in `make`
when `limit < 0`; or, when `limit = 0`, past `make` with the filling loop not
entered and the first receive from `ch` not done.  No goroutine is started and
`ch` is empty and open. -/
def Stalled (c : Call) (s : State) : Prop :=
  s.tasks = [] ∧ s.buf = 0 ∧ s.closed = false
  ∧ (s.pc = MainPc.init
      ∨ (c.limit < 0 ∧ s.pc = MainPc.panicked)
      ∨ (c.limit = 0 ∧ (s.pc = MainPc.fill 0 ∨ s.pc = MainPc.acquire 0)))

/-- A call with `limit = 1` and a single task, which returns normally. -/
def raceCall : Call := ⟨1, [TaskKind.returns]⟩

/-- A schedule for `raceCall`: the task runs and calls `wg.Done()`; the caller
then passes `wg.Wait()` and closes `ch`; only then does the task reach its
send. -/
def raceSchedule : List Choice :=
  [Choice.main, Choice.main, Choice.main, Choice.main, Choice.main,
    Choice.task 0, Choice.task 0, Choice.task 0,
    Choice.main, Choice.main, Choice.main,
    Choice.task 0]

end Goalong

namespace Retry

/-! ## Facts about the retry loop -/

theorem wrap64_of_range (x : Int) (h1 : -2 ^ 63 ≤ x) (h2 : x < 2 ^ 63) : wrap64 x = x := by
  unfold wrap64
  omega

theorem DoLoop_advance {σ : Type} (next : σ → Int × σ) (r : retryer σ) (env : Env) (k : Nat) :
    ∀ (fuel calls : Nat) (waits : List Int) (rt : Int) (b : σ),
      0 ≤ rt → rt + k < 2 ^ 63 →
      (∀ i, i < k → ∃ e, env.fn (calls + i) = some e ∧ e.isPermanent = false) →
      (∀ i : Nat, i < k → attemptsExhausted r (rt + i) = false) →
      (∀ i, i < k → timeExhausted r (env.since (calls + i)) = false) →
      (∀ i, i < k → env.done (calls + i) = none) →
      ∃ (waits' : List Int) (b' : σ), waits'.length = waits.length + k ∧
        DoLoop next r env (fuel + k) calls waits rt b
          = DoLoop next r env fuel (calls + k) waits' (rt + k) b' := by
  induction k with
  | zero =>
    intro fuel calls waits rt b _ _ _ _ _ _
    exact ⟨waits, b, by simp, by simp⟩
  | succ k ih =>
    intro fuel calls waits rt b h0 hlt hfn hat hti hdn
    obtain ⟨e, he, hp⟩ := hfn 0 (Nat.succ_pos k)
    have hat0 := hat 0 (Nat.succ_pos k)
    have hti0 := hti 0 (Nat.succ_pos k)
    have hdn0 := hdn 0 (Nat.succ_pos k)
    simp only [Nat.add_zero, Nat.cast_zero, add_zero] at he hat0 hti0 hdn0
    have hw : wrap64 (rt + 1) = rt + 1 := by
      apply wrap64_of_range <;> push_cast at hlt <;> omega
    obtain ⟨waits', b', hlen, heq⟩ := ih fuel (calls + 1) (waits ++ [(next b).1]) (rt + 1)
      (next b).2 (by omega) (by push_cast at hlt; omega)
      (fun i hi => by
        have := hfn (i + 1) (by omega)
        rwa [show calls + (i + 1) = calls + 1 + i by omega] at this)
      (fun i hi => by
        have := hat (i + 1) (by omega)
        rwa [show rt + ((i + 1 : Nat) : Int) = rt + 1 + (i : Int) by push_cast; omega] at this)
      (fun i hi => by
        have := hti (i + 1) (by omega)
        rwa [show calls + (i + 1) = calls + 1 + i by omega] at this)
      (fun i hi => by
        have := hdn (i + 1) (by omega)
        rwa [show calls + (i + 1) = calls + 1 + i by omega] at this)
    refine ⟨waits', b', by simp at hlen; omega, ?_⟩
    rw [show fuel + (k + 1) = (fuel + k) + 1 by omega]
    rw [DoLoop, he]
    simp only [hp, hat0, hti0, hdn0, hw]
    simp only [Bool.false_eq_true, if_false]
    rw [heq]
    congr 1
    · omega
    · push_cast; omega


theorem attemptsExhausted_false_of_lt {σ : Type} (r : retryer σ) (n i : Nat)
    (hr : r.maxRetryTime = n) (hmax : (n : Int) + 1 < 2 ^ 63) (hi : i < n) :
    attemptsExhausted r ((0 : Int) + i) = false := by
  have hw : wrap64 ((0 : Int) + i + 1) = (i : Int) + 1 := by
    rw [wrap64_of_range] <;> omega
  simp only [attemptsExhausted, hw, hr, Bool.and_eq_false_imp, decide_eq_true_eq,
    decide_eq_false_iff_not]
  intro _
  omega

theorem attemptsExhausted_true_at {σ : Type} (r : retryer σ) (n : Nat)
    (hr : r.maxRetryTime = n) (hn : 1 ≤ n) (hmax : (n : Int) + 1 < 2 ^ 63) :
    attemptsExhausted r ((0 : Int) + n) = true := by
  have hw : wrap64 ((0 : Int) + n + 1) = (n : Int) + 1 := by
    rw [wrap64_of_range] <;> omega
  simp only [attemptsExhausted, hw, hr, Bool.and_eq_true, decide_eq_true_eq]
  omega

/-- C1, as stated, fails: with `maxRetryTime = 3`, the zero backoff, a time
budget of 60s of which nothing is used, no cancellation, and an operation that
fails with a non-permanent error on every call, `Do` returns
`MaxRetryTimeError` after 4 invocations of the operation, not 3. -/
theorem C1_counterexample :
    (Do zeroBackoff.Next ⟨3, 60 * Second, some ()⟩
        ⟨fun _ => some (Err.other 0), fun _ => 0, fun _ => none⟩ 10).map Outcome.summary
      = some (some Err.MaxRetryTimeError, 4, 3, 3)
    ∧ (Do zeroBackoff.Next ⟨3, 60 * Second, some ()⟩
        ⟨fun _ => some (Err.other 0), fun _ => 0, fun _ => none⟩ 10).map Outcome.calls
      ≠ some 3 := by
  decide

/-- C1, amended: `maxRetryTime` bounds the retries, not the invocations.  For
every `n ≥ 1` (below the largest `int`), a retryer with `maxRetryTime = n` and
a non-nil backoff, whose time budget is never exceeded and whose context is
never cancelled, given an operation that fails with a non-permanent error on
every call, invokes the operation exactly `n + 1` times, calls `Next()`
exactly `n` times, and `Do` returns `MaxRetryTimeError`; `n + 1` iterations of
fuel are enough. -/
theorem Do_exhausts_after_maxRetryTime_retries {σ : Type} (next : σ → Int × σ)
    (r : retryer σ) (b : σ) (env : Env) (n : Nat)
    (hn : 1 ≤ n) (hmax : (n : Int) + 1 < 2 ^ 63)
    (hr : r.maxRetryTime = n) (hb : r.backoff = some b)
    (hfn : ∀ i, ∃ e, env.fn i = some e ∧ e.isPermanent = false)
    (hti : ∀ i, timeExhausted r (env.since i) = false)
    (hdn : ∀ i, env.done i = none)
    (fuel : Nat) (hfuel : n + 1 ≤ fuel) :
    (Do next r env fuel).map Outcome.summary
      = some (some Err.MaxRetryTimeError, n + 1, n, (n : Int)) := by
  obtain ⟨f, rfl⟩ : ∃ f, fuel = (f + 1) + n := ⟨fuel - (n + 1), by omega⟩
  obtain ⟨waits', b', hlen, heq⟩ := DoLoop_advance next r env n (f + 1) 0 [] 0 b
    (le_refl _) (by omega)
    (fun i _ => by simpa using hfn i)
    (fun i hi => attemptsExhausted_false_of_lt r n i hr hmax hi)
    (fun i _ => by simpa using hti i)
    (fun i _ => by simpa using hdn i)
  obtain ⟨e, he, hp⟩ := hfn n
  have hex := attemptsExhausted_true_at r n hr hn hmax
  simp only [Nat.zero_add] at heq
  simp only [Do, hb, heq, DoLoop, he, hp, hex, Bool.false_eq_true, if_false, if_true,
    Option.map_some', Outcome.summary, Outcome.nexts]
  simp [hlen]

/-- Witness for `Do_exhausts_after_maxRetryTime_retries`: `n = 3` with the
zero backoff. -/
theorem Do_exhausts_after_maxRetryTime_retries_witness :
    (Do zeroBackoff.Next ⟨3, 60 * Second, some ()⟩
        ⟨fun _ => some (Err.other 0), fun _ => 0, fun _ => none⟩ 4).map Outcome.summary
      = some (some Err.MaxRetryTimeError, 3 + 1, 3, ((3 : Nat) : Int)) :=
  Do_exhausts_after_maxRetryTime_retries zeroBackoff.Next (⟨3, 60 * Second, some ()⟩ : retryer Unit) ()
    ⟨fun _ => some (Err.other 0), fun _ => 0, fun _ => none⟩ 3
    (by decide) (by decide) rfl rfl
    (fun _ => ⟨Err.other 0, rfl, rfl⟩)
    (fun _ => (by decide : timeExhausted (⟨3, 60 * Second, some ()⟩ : retryer Unit) 0 = false))
    (fun _ => rfl) 4 (by decide)

/-- C2: the code at the failing input.  With `maxRetryTime = 0` and
`maxElapsedTime = 0`, the zero backoff, no cancellation and an operation that
fails once with a non-permanent error and then succeeds, `Do` returns
`MaxElapsedTimeError` after a single invocation as soon as the clock has
advanced by one nanosecond. -/
theorem Do_zero_maxElapsedTime_stops :
    (Do zeroBackoff.Next ⟨0, 0, some ()⟩
        ⟨fun i => if i = 0 then some (Err.other 0) else none, fun _ => 1, fun _ => none⟩
        10).map Outcome.summary
      = some (some Err.MaxElapsedTimeError, 1, 0, 0) := by
  decide

/-- C3, as stated, fails: a retryer whose backoff is the exponential backoff
with `randomizationFactor` 0 (other fields default) is used for two successive
calls of `Do`; in both the operation fails once and then succeeds, the clock
reads 0, nothing is cancelled and the random source yields 0.  The first call
waits 500ms, the second 1000ms. -/
theorem C3_counterexample :
    (DoTwice (exponentialNext fun _ => 0)
        ⟨3, 60 * Second,
          some (NewExponentialBackoff [exponentialBackoffOption.WithRandomizationFactor 0], 0)⟩
        ⟨fun i => if i = 0 then some (Err.other 0) else none, fun _ => 0, fun _ => none⟩
        5).map (fun p => (p.1.waits, p.2.waits))
      = some ([500 * Millisecond], [1000 * Millisecond])
    ∧ [500 * Millisecond] ≠ [1000 * Millisecond] := by
  decide!

theorem DoLoop_summary_congr {σ : Type} (next : σ → Int × σ) (r1 r2 : retryer σ) (env : Env)
    (hm : r1.maxRetryTime = r2.maxRetryTime) (he : r1.maxElapsedTime = r2.maxElapsedTime) :
    ∀ (fuel calls : Nat) (w1 w2 : List Int) (rt : Int) (b1 b2 : σ),
      w1.length = w2.length →
      (DoLoop next r1 env fuel calls w1 rt b1).map Outcome.summary
        = (DoLoop next r2 env fuel calls w2 rt b2).map Outcome.summary := by
  intro fuel
  induction fuel with
  | zero => intros; rfl
  | succ fuel ih =>
    intro calls w1 w2 rt b1 b2 hlen
    have hat : attemptsExhausted r1 rt = attemptsExhausted r2 rt := by
      simp [attemptsExhausted, hm]
    have hti : timeExhausted r1 (env.since calls) = timeExhausted r2 (env.since calls) := by
      simp [timeExhausted, he]
    simp only [DoLoop, hat, hti]
    cases env.fn calls with
    | none => simp [Outcome.summary, Outcome.nexts, hlen]
    | some e =>
      by_cases hp : e.isPermanent = true
      · simp [hp, Outcome.summary, Outcome.nexts, hlen]
      · by_cases h1 : attemptsExhausted r2 rt = true
        · simp [hp, h1, Outcome.summary, Outcome.nexts, hlen]
        · by_cases h2 : timeExhausted r2 (env.since calls) = true
          · simp [hp, h1, h2, Outcome.summary, Outcome.nexts, hlen]
          · cases hd : env.done calls with
            | some ce => simp [hp, h1, h2, Outcome.summary, Outcome.nexts, hlen]
            | none =>
              simp only [hp, h1, h2, Bool.false_eq_true, if_false]
              exact ih _ _ _ _ _ _ (by simp [hlen])

/-- C3, amended: what two successive calls of `Do` on one retryer share is
everything but the waits.  For every backoff, when both calls see the same
operation results, clock readings and `select` outcomes, they return the same
error after the same number of invocations, the same number of calls of
`Next()` and with the same final `retryTime`: the counter and the start time
are local to a call.  The backoff object is not reset between the calls, so
the durations it yields in the second call continue from where the first call
left it. -/
theorem DoTwice_same_summary {σ : Type} (next : σ → Int × σ) (r : retryer σ) (env : Env)
    (fuel : Nat) :
    (DoTwice next r env fuel).map (fun p => p.1.summary)
      = (DoTwice next r env fuel).map (fun p => p.2.summary) := by
  unfold DoTwice
  cases hb : r.backoff with
  | none => simp [Do, hb, Outcome.summary, Outcome.nexts]
  | some b =>
    simp only [Do, hb]
    cases h1 : DoLoop next r env fuel 0 [] 0 b with
    | none => simp
    | some o1 =>
      have hc := DoLoop_summary_congr next r { r with backoff := some o1.backoff } env rfl rfl
        fuel 0 [] [] 0 b o1.backoff rfl
      rw [h1] at hc
      simp only [Option.map_some']
      cases h2 : DoLoop next { r with backoff := some o1.backoff } env fuel 0 [] 0 o1.backoff with
      | none => rw [h2] at hc; simp at hc
      | some o2 =>
        rw [h2] at hc
        simp only [Option.map_some', Option.some.injEq] at hc
        simpa [Outcome.summary, Outcome.nexts] using hc

/-- C4: when the invocation number `k` (counting from 0) returns an error
that is or wraps `PermanentError`, `Do` returns that very error, the operation
has been invoked `k + 1` times and `Next()` called `k` times, once before each
of the invocations after the first and not after the last; nothing is assumed
about the two budgets at that moment.  The invocation number `k` is reached
when each earlier one failed with a non-permanent error, left both budgets
unexhausted and was followed by a wait that the timer won; `k + 1` iterations
of fuel are enough. -/
theorem Do_returns_permanent_error {σ : Type} (next : σ → Int × σ) (r : retryer σ) (b : σ)
    (env : Env) (k : Nat) (e : Err)
    (hb : r.backoff = some b) (hk : (k : Int) < 2 ^ 63)
    (hfn : ∀ i, i < k → ∃ e', env.fn i = some e' ∧ e'.isPermanent = false)
    (hat : ∀ i : Nat, i < k → attemptsExhausted r (i : Int) = false)
    (hti : ∀ i, i < k → timeExhausted r (env.since i) = false)
    (hdn : ∀ i, i < k → env.done i = none)
    (hek : env.fn k = some e) (hp : e.isPermanent = true)
    (fuel : Nat) (hfuel : k + 1 ≤ fuel) :
    (Do next r env fuel).map Outcome.summary = some (some e, k + 1, k, (k : Int)) := by
  obtain ⟨f, rfl⟩ : ∃ f, fuel = (f + 1) + k := ⟨fuel - (k + 1), by omega⟩
  obtain ⟨waits', b', hlen, heq⟩ := DoLoop_advance next r env k (f + 1) 0 [] 0 b
    (le_refl _) (by omega)
    (fun i hi => by simpa using hfn i hi)
    (fun i hi => by simpa using hat i hi)
    (fun i hi => by simpa using hti i hi)
    (fun i hi => by simpa using hdn i hi)
  simp only [Nat.zero_add] at heq
  simp only [Do, hb, heq, DoLoop, hek, hp, if_true, Option.map_some', Outcome.summary,
    Outcome.nexts]
  simp [hlen]

/-- Witness for `Do_returns_permanent_error`: with `maxRetryTime = 1` and a
time budget already used up at the second invocation, the second invocation
returns an error that wraps `PermanentError`. -/
theorem Do_returns_permanent_error_witness :
    (Do zeroBackoff.Next (⟨1, 5, some ()⟩ : retryer Unit)
        ⟨fun i => if i = 0 then some (Err.other 0) else some (Err.wrap 7 Err.PermanentError),
          fun i => if i = 0 then 0 else 9, fun _ => none⟩ 2).map Outcome.summary
      = some (some (Err.wrap 7 Err.PermanentError), 1 + 1, 1, ((1 : Nat) : Int)) :=
  Do_returns_permanent_error zeroBackoff.Next (⟨1, 5, some ()⟩ : retryer Unit) ()
    ⟨fun i => if i = 0 then some (Err.other 0) else some (Err.wrap 7 Err.PermanentError),
      fun i => if i = 0 then 0 else 9, fun _ => none⟩ 1 (Err.wrap 7 Err.PermanentError)
    rfl (by decide)
    (fun i hi => by
      obtain rfl : i = 0 := by omega
      exact ⟨Err.other 0, rfl, rfl⟩)
    (fun i hi => by
      obtain rfl : i = 0 := by omega
      decide)
    (fun i hi => by
      obtain rfl : i = 0 := by omega
      decide)
    (fun _ _ => rfl) rfl rfl 2 (by decide)

/-- C5: when the `select` that follows the failed invocation number `k`
(counting from 0) receives from `ctx.Done()`, `Do` returns `ctx.Err()`, the
operation has been invoked `k + 1` times in total, and `retryTime` is `k`, the
number of waits completed before: the cancelled wait is not counted.  The
invocations up to number `k` fail with non-permanent errors and leave both
budgets unexhausted, and the timer wins the earlier waits; `k + 1` iterations
of fuel are enough. -/
theorem Do_returns_ctx_error {σ : Type} (next : σ → Int × σ) (r : retryer σ) (b : σ)
    (env : Env) (k : Nat) (ce : Err)
    (hb : r.backoff = some b) (hk : (k : Int) < 2 ^ 63)
    (hfn : ∀ i, i ≤ k → ∃ e', env.fn i = some e' ∧ e'.isPermanent = false)
    (hat : ∀ i : Nat, i ≤ k → attemptsExhausted r (i : Int) = false)
    (hti : ∀ i, i ≤ k → timeExhausted r (env.since i) = false)
    (hdn : ∀ i, i < k → env.done i = none)
    (hck : env.done k = some ce)
    (fuel : Nat) (hfuel : k + 1 ≤ fuel) :
    (Do next r env fuel).map Outcome.summary = some (some ce, k + 1, k + 1, (k : Int)) := by
  obtain ⟨f, rfl⟩ : ∃ f, fuel = (f + 1) + k := ⟨fuel - (k + 1), by omega⟩
  obtain ⟨waits', b', hlen, heq⟩ := DoLoop_advance next r env k (f + 1) 0 [] 0 b
    (le_refl _) (by omega)
    (fun i hi => by simpa using hfn i (le_of_lt hi))
    (fun i hi => by simpa using hat i (le_of_lt hi))
    (fun i hi => by simpa using hti i (le_of_lt hi))
    (fun i hi => by simpa using hdn i hi)
  obtain ⟨e, he, hp⟩ := hfn k (le_refl _)
  have hatk := hat k (le_refl _)
  have htik := hti k (le_refl _)
  simp only [Nat.zero_add] at heq
  simp only [zero_add] at heq
  simp only [Do, hb, heq, DoLoop, he, hp, hatk, htik, hck, Bool.false_eq_true, if_false,
    Option.map_some', Outcome.summary, Outcome.nexts]
  simp [hlen]

/-- Witness for `Do_returns_ctx_error`: the context is cancelled during the
wait between the first and the second attempt. -/
theorem Do_returns_ctx_error_witness :
    (Do zeroBackoff.Next (⟨3, 60 * Second, some ()⟩ : retryer Unit)
        ⟨fun _ => some (Err.other 0), fun _ => 0, fun _ => some (Err.ctxErr 0)⟩
        1).map Outcome.summary
      = some (some (Err.ctxErr 0), 0 + 1, 0 + 1, ((0 : Nat) : Int)) :=
  Do_returns_ctx_error zeroBackoff.Next (⟨3, 60 * Second, some ()⟩ : retryer Unit) ()
    ⟨fun _ => some (Err.other 0), fun _ => 0, fun _ => some (Err.ctxErr 0)⟩ 0 (Err.ctxErr 0)
    rfl (by decide)
    (fun _ _ => ⟨Err.other 0, rfl, rfl⟩)
    (fun i hi => by
      obtain rfl : i = 0 := by omega
      decide)
    (fun _ _ => (by decide : timeExhausted (⟨3, 60 * Second, some ()⟩ : retryer Unit) 0 = false))
    (fun _ hi => absurd hi (by omega)) rfl 1 (by decide)

end Retry

namespace Retry
namespace F64

theorem log2Aux_spec : ∀ (fuel n : Nat), n ≤ fuel → 1 ≤ n →
    2 ^ log2Aux fuel n ≤ n ∧ n < 2 ^ (log2Aux fuel n + 1) := by
  intro fuel
  induction fuel with
  | zero => intro n h1 h2; omega
  | succ fuel ih =>
    intro n hle hn
    unfold log2Aux
    by_cases h2 : n < 2
    · simp only [h2, if_true]
      constructor <;> simp <;> omega
    · simp only [h2, if_false]
      obtain ⟨ha, hb⟩ := ih (n / 2) (by omega) (by omega)
      constructor
      · calc 2 ^ (log2Aux fuel (n / 2) + 1) = 2 ^ log2Aux fuel (n / 2) * 2 := pow_succ _ _
          _ ≤ (n / 2) * 2 := Nat.mul_le_mul_right _ ha
          _ ≤ n := Nat.div_mul_le_self n 2
      · calc n < (n / 2 + 1) * 2 := by omega
          _ ≤ 2 ^ (log2Aux fuel (n / 2) + 1) * 2 := Nat.mul_le_mul_right _ hb
          _ = 2 ^ (log2Aux fuel (n / 2) + 1 + 1) := (pow_succ _ _).symm

theorem natLog2_le (n : Nat) (hn : 1 ≤ n) : 2 ^ natLog2 n ≤ n :=
  (log2Aux_spec n n (le_refl _) hn).1

theorem natLog2_lt (n : Nat) (hn : 1 ≤ n) : n < 2 ^ (natLog2 n + 1) :=
  (log2Aux_spec n n (le_refl _) hn).2

/-- The exponent found by `ilog2` is not too large: `2 ^ ilog2 x ≤ x` for
positive `x`. -/
theorem zpow_ilog2_le (x : ℚ) (hx : 0 < x) : (2 : ℚ) ^ ilog2 x ≤ x := by
  have hnum : 0 < x.num := Rat.num_pos.mpr hx
  have hden : 0 < x.den := x.den_pos
  have hn1 : 1 ≤ x.num.natAbs := by omega
  have hcast : ((x.num.natAbs : ℕ) : ℚ) = (x.num : ℚ) := by
    rw [← Int.cast_natCast, Int.natAbs_of_nonneg hnum.le]
  have hxe : x * (x.den : ℚ) = (x.num.natAbs : ℚ) := by
    rw [hcast]
    exact Rat.mul_den_eq_num x
  have hdq : (0 : ℚ) < (x.den : ℚ) := by exact_mod_cast hden
  unfold ilog2
  have hlo : 2 ^ natLog2 x.num.natAbs ≤ x.num.natAbs := natLog2_le _ hn1
  generalize natLog2 x.num.natAbs = a at *
  have hhi : x.den < 2 ^ (natLog2 x.den + 1) := natLog2_lt _ hden
  generalize natLog2 x.den = b at *
  have h2b : (0 : ℚ) < 2 ^ b := by positivity
  split_ifs with hc
  · rw [zpow_sub₀ (by norm_num : (2 : ℚ) ≠ 0), zpow_natCast, zpow_natCast]
    rw [div_le_iff₀ h2b]
    have hc' : (x.den : ℚ) * 2 ^ a ≤ (x.num.natAbs : ℚ) * 2 ^ b := by exact_mod_cast hc
    rw [← hxe] at hc'
    have : (x.den : ℚ) * 2 ^ a ≤ (x.den : ℚ) * (x * 2 ^ b) := by
      calc (x.den : ℚ) * 2 ^ a ≤ x * (x.den : ℚ) * 2 ^ b := hc'
        _ = (x.den : ℚ) * (x * 2 ^ b) := by ring
    exact le_of_mul_le_mul_left this hdq
  · have hlo' : (2 : ℚ) ^ a ≤ (x.num.natAbs : ℚ) := by exact_mod_cast hlo
    have hhi' : (x.den : ℚ) ≤ 2 ^ (b + 1) := by exact_mod_cast hhi.le
    rw [show (a : Int) - b - 1 = (a : Int) - ((b + 1 : Nat) : Int) by push_cast; ring]
    rw [zpow_sub₀ (by norm_num : (2 : ℚ) ≠ 0), zpow_natCast, zpow_natCast]
    rw [div_le_iff₀ (by positivity)]
    calc (2 : ℚ) ^ a ≤ (x.num.natAbs : ℚ) := hlo'
      _ = x * x.den := hxe.symm
      _ ≤ x * 2 ^ (b + 1) := by gcongr

theorem floor_le_rne (y : ℚ) : ⌊y⌋ ≤ rne y := by
  unfold rne
  split_ifs <;> omega

theorem rne_le_floor_add_one (y : ℚ) : rne y ≤ ⌊y⌋ + 1 := by
  unfold rne
  split_ifs <;> omega

theorem rne_intCast (n : Int) : rne (n : ℚ) = n := by
  unfold rne
  simp

theorem le_rne (n : Int) (y : ℚ) (h : (n : ℚ) ≤ y) : n ≤ rne y :=
  le_trans (Int.le_floor.mpr h) (floor_le_rne y)

theorem rne_le (n : Int) (y : ℚ) (h : y ≤ (n : ℚ)) : rne y ≤ n := by
  rcases eq_or_lt_of_le h with heq | hlt
  · rw [heq, rne_intCast]
  · have : ⌊y⌋ < n := Int.floor_lt.mpr hlt
    have := rne_le_floor_add_one y
    omega


/-- The `float64` grid at a positive `x` contains every integer up to `2 ^ 53`
that `x` has not passed: such an integer is a multiple of `ulp x`, or lies
below the power of two that starts the binade of `x`. -/
theorem round_ge_of_int_le (c : Int) (x : ℚ) (hc0 : 0 ≤ c) (hc : c ≤ 2 ^ 53)
    (hcx : (c : ℚ) ≤ x) : (c : ℚ) ≤ round x := by
  by_cases hx0 : x = 0
  · simpa [round, hx0] using hcx
  have hxpos : 0 < x := lt_of_le_of_ne (le_trans (by exact_mod_cast hc0) hcx) (Ne.symm hx0)
  simp only [round, hx0, if_false]
  have hq : (0 : ℚ) < ulp x := by unfold ulp; positivity
  by_cases hE : max (ilog2 x) (-1022) ≤ 52
  · -- `c / ulp x` is an integer
    obtain ⟨m, hm⟩ : ∃ m : Nat, (52 : Int) - max (ilog2 x) (-1022) = m :=
      ⟨(52 - max (ilog2 x) (-1022)).toNat, by omega⟩
    have hu : ulp x = ((2 : ℚ) ^ m)⁻¹ := by
      unfold ulp
      rw [show max (ilog2 x) (-1022) - 52 = -(m : Int) by omega, zpow_neg, zpow_natCast]
    have hint : (c : ℚ) / ulp x = ((c * 2 ^ m : Int) : ℚ) := by
      rw [hu]; push_cast; field_simp
    have h1 : ((c * 2 ^ m : Int) : ℚ) ≤ x / ulp x := by
      rw [← hint]; gcongr
    have h2 := le_rne _ _ h1
    have h3 : ((c * 2 ^ m : Int) : ℚ) ≤ (rne (x / ulp x) : ℚ) := by exact_mod_cast h2
    calc (c : ℚ) = (c : ℚ) / ulp x * ulp x := by field_simp
      _ = ((c * 2 ^ m : Int) : ℚ) * ulp x := by rw [hint]
      _ ≤ (rne (x / ulp x) : ℚ) * ulp x := by gcongr
  · -- `2 ^ 53 ≤ 2 ^ ilog2 x ≤ round x`
    have hE' : 53 ≤ ilog2 x := by omega
    have hmax : max (ilog2 x) (-1022) = ilog2 x := by omega
    have hu : ulp x = (2 : ℚ) ^ (ilog2 x - 52) := by unfold ulp; rw [hmax]
    have hlow := zpow_ilog2_le x hxpos
    have e52 : (((2 : Int) ^ 52 : Int) : ℚ) = (2 : ℚ) ^ (52 : Int) := by norm_num
    have hsplit : (2 : ℚ) ^ ilog2 x = (2 : ℚ) ^ (52 : Int) * ulp x := by
      rw [hu, ← zpow_add₀ (by norm_num : (2 : ℚ) ≠ 0)]
      congr 1
      ring
    have h1 : (((2 : Int) ^ 52 : Int) : ℚ) ≤ x / ulp x := by
      rw [le_div_iff₀ hq, e52, ← hsplit]
      exact hlow
    have h2 := le_rne _ _ h1
    have h3 : (((2 : Int) ^ 52 : Int) : ℚ) ≤ (rne (x / ulp x) : ℚ) := by exact_mod_cast h2
    have h53 : (2 : ℚ) ^ (53 : Int) ≤ (2 : ℚ) ^ ilog2 x :=
      zpow_le_zpow_right₀ (by norm_num) hE'
    have hc53 : (c : ℚ) ≤ (2 : ℚ) ^ (53 : Int) := by
      have : (c : ℚ) ≤ ((2 ^ 53 : Int) : ℚ) := by exact_mod_cast hc
      refine le_trans this (le_of_eq ?_)
      norm_num
    calc (c : ℚ) ≤ (2 : ℚ) ^ (53 : Int) := hc53
      _ ≤ (2 : ℚ) ^ ilog2 x := h53
      _ = (((2 : Int) ^ 52 : Int) : ℚ) * ulp x := by rw [hsplit, e52]
      _ ≤ (rne (x / ulp x) : ℚ) * ulp x := by gcongr

/-- Integers up to `2 ^ 53` are `float64` values: the conversion of such an
integer is exact. -/
theorem ofInt_exact (c : Int) (hc0 : 0 ≤ c) (hc : c ≤ 2 ^ 53) : ofInt c = (c : ℚ) := by
  unfold ofInt
  by_cases hx0 : (c : ℚ) = 0
  · simp [round, hx0]
  have hcpos : (0 : ℚ) < (c : ℚ) :=
    lt_of_le_of_ne (by exact_mod_cast hc0) (Ne.symm hx0)
  simp only [round, hx0, if_false]
  have hq : (0 : ℚ) < ulp (c : ℚ) := by unfold ulp; positivity
  have hkey : ∃ k : Int, (c : ℚ) / ulp (c : ℚ) = (k : ℚ) := by
    by_cases hE : max (ilog2 (c : ℚ)) (-1022) ≤ 52
    · obtain ⟨m, hm⟩ : ∃ m : Nat, (52 : Int) - max (ilog2 (c : ℚ)) (-1022) = m :=
        ⟨(52 - max (ilog2 (c : ℚ)) (-1022)).toNat, by omega⟩
      have hu : ulp (c : ℚ) = ((2 : ℚ) ^ m)⁻¹ := by
        unfold ulp
        rw [show max (ilog2 (c : ℚ)) (-1022) - 52 = -(m : Int) by omega, zpow_neg, zpow_natCast]
      exact ⟨c * 2 ^ m, by rw [hu]; push_cast; field_simp⟩
    · have hE' : 53 ≤ ilog2 (c : ℚ) := by omega
      have hlow := zpow_ilog2_le (c : ℚ) hcpos
      have hc53 : (c : ℚ) ≤ (2 : ℚ) ^ (53 : Int) := by
        have : (c : ℚ) ≤ ((2 ^ 53 : Int) : ℚ) := by exact_mod_cast hc
        refine le_trans this (le_of_eq ?_)
        norm_num
      have hle : ilog2 (c : ℚ) ≤ 53 :=
        (zpow_le_zpow_iff_right₀ (by norm_num : (1 : ℚ) < 2)).mp (le_trans hlow hc53)
      have he : ilog2 (c : ℚ) = 53 := by omega
      have hceq : (c : ℚ) = (2 : ℚ) ^ (53 : Int) := by
        apply le_antisymm hc53
        rw [← he]; exact hlow
      have hu : ulp (c : ℚ) = 2 := by
        unfold ulp
        rw [he]
        norm_num
      exact ⟨2 ^ 52, by rw [hu, hceq]; norm_num⟩
  obtain ⟨k, hk⟩ := hkey
  rw [hk, rne_intCast, ← hk]
  field_simp

end F64
end Retry

namespace Retry

/-- C6: the code at the failing input.  For the backoff built with
`baseInterval = 500ms`, `multiplier = 2`, `randomizationFactor = 0` and
`maxInterval = 60s`: when every draw is 0 the first ten calls of `Next()`
return 500ms, 1s, 2s, 4s, 8s, 16s, 32s, 60s, 60s, 60s; when every draw is
`1 - 2 ^ (-53)`, the largest value below 1 that `rand.Float64()` yields, each
of them returns one nanosecond more, because the sum
`float64(min) + draw * float64(1)` rounds up to the next integer. -/
theorem Next_factor_zero_values :
    (NewExponentialBackoff
        [exponentialBackoffOption.WithBaseInterval (500 * Millisecond),
          exponentialBackoffOption.WithMultiplier 2,
          exponentialBackoffOption.WithRandomizationFactor 0,
          exponentialBackoffOption.WithMaxInterval (60 * Second)]).nextValues
        (List.replicate 10 0)
      = [500000000, 1000000000, 2000000000, 4000000000, 8000000000, 16000000000, 32000000000,
          60000000000, 60000000000, 60000000000]
    ∧ (NewExponentialBackoff
        [exponentialBackoffOption.WithBaseInterval (500 * Millisecond),
          exponentialBackoffOption.WithMultiplier 2,
          exponentialBackoffOption.WithRandomizationFactor 0,
          exponentialBackoffOption.WithMaxInterval (60 * Second)]).nextValues
        (List.replicate 10 (1 - 1 / 2 ^ 53))
      = [500000001, 1000000001, 2000000001, 4000000001, 8000000001, 16000000001, 32000000001,
          60000000001, 60000000001, 60000000001] := by
  decide!

/-- C7: the code at the failing input.  For the default exponential backoff
(`currentInterval = 500ms`, `randomizationFactor = 0.5`) and the draw
`1 - 2 ^ (-53)`, the first call of `Next()` returns 750000001ns, which is
above `currentInterval + currentInterval * randomizationFactor = 750000000ns`. -/
theorem Next_default_above_bound :
    ((NewExponentialBackoff []).Next (1 - 1 / 2 ^ 53)).1 = 750000001
    ∧ ((NewExponentialBackoff []).currentInterval : ℚ)
        + (NewExponentialBackoff []).currentInterval * (NewExponentialBackoff []).randomizationFactor
      = 750000000
    ∧ ¬ ((((NewExponentialBackoff []).Next (1 - 1 / 2 ^ 53)).1 : ℚ)
        ≤ ((NewExponentialBackoff []).currentInterval : ℚ)
          + (NewExponentialBackoff []).currentInterval
            * (NewExponentialBackoff []).randomizationFactor) := by
  decide!

/-- C8, as stated, fails: `WithMultiplier` accepts every positive multiplier.
With the option `WithMultiplier(0.5)` alone, `maxInterval = 60s` is at least
`baseInterval = 500ms`, and after one call of `Next()` the cursor is 250ms,
below `baseInterval`. -/
theorem C8_counterexample :
    (NewExponentialBackoff [exponentialBackoffOption.WithMultiplier (F64.Value.fin (1 / 2))]).baseInterval
      ≤ (NewExponentialBackoff [exponentialBackoffOption.WithMultiplier (F64.Value.fin (1 / 2))]).maxInterval
    ∧ ((NewExponentialBackoff [exponentialBackoffOption.WithMultiplier (F64.Value.fin (1 / 2))]).afterNexts
        [0]).currentInterval = 250 * Millisecond
    ∧ ¬ ((NewExponentialBackoff [exponentialBackoffOption.WithMultiplier (F64.Value.fin (1 / 2))]).baseInterval
      ≤ ((NewExponentialBackoff [exponentialBackoffOption.WithMultiplier (F64.Value.fin (1 / 2))]).afterNexts
        [0]).currentInterval) := by
  decide!

end Retry

namespace Retry

theorem foldl_apply_baseInterval_nonneg (opts : List exponentialBackoffOption) :
    ∀ v : exponentialBackoff, 0 ≤ v.baseInterval →
      0 ≤ (opts.foldl (fun v opt => opt.apply v) v).baseInterval := by
  induction opts with
  | nil => intro v hv; exact hv
  | cons opt opts ih =>
    intro v hv
    apply ih
    cases opt with
    | WithBaseInterval interval =>
      simp only [exponentialBackoffOption.apply]
      split_ifs with h
      · decide
      · omega
    | WithMaxInterval interval => exact hv
    | WithRandomizationFactor f => exact hv
    | WithMultiplier m => exact hv

theorem NewExponentialBackoff_baseInterval_nonneg (opts : List exponentialBackoffOption) :
    0 ≤ (NewExponentialBackoff opts).baseInterval := by
  unfold NewExponentialBackoff
  exact foldl_apply_baseInterval_nonneg opts _ (by decide)

theorem NewExponentialBackoff_currentInterval (opts : List exponentialBackoffOption) :
    (NewExponentialBackoff opts).currentInterval = (NewExponentialBackoff opts).baseInterval :=
  rfl

theorem toInt64_of_bounds (x : ℚ) (lo hi : Int) (h0 : 0 ≤ lo) (h53 : hi ≤ 2 ^ 53)
    (hlo : (lo : ℚ) ≤ x) (hhi : x ≤ (hi : ℚ)) :
    lo ≤ F64.toInt64 x ∧ F64.toInt64 x ≤ hi := by
  have hx0 : (0 : ℚ) ≤ x := le_trans (by exact_mod_cast h0) hlo
  have h1 : lo ≤ ⌊x⌋ := Int.le_floor.mpr hlo
  have h2 : ⌊x⌋ ≤ hi := by
    have : (⌊x⌋ : ℚ) ≤ (hi : ℚ) := le_trans (Int.floor_le x) hhi
    exact_mod_cast this
  unfold F64.toInt64
  simp only [hx0, if_true]
  have hr : -2 ^ 63 ≤ ⌊x⌋ ∧ ⌊x⌋ < 2 ^ 63 := by constructor <;> omega
  rw [if_pos hr]
  exact ⟨h1, h2⟩

theorem toInt64_le_of_le (x : ℚ) (hi : Int) (h0 : 0 ≤ hi) (hx : x ≤ (hi : ℚ)) :
    F64.toInt64 x ≤ hi := by
  unfold F64.toInt64
  by_cases hx0 : 0 ≤ x
  · have h2 : ⌊x⌋ ≤ hi := by
      have : (⌊x⌋ : ℚ) ≤ (hi : ℚ) := le_trans (Int.floor_le x) hx
      exact_mod_cast this
    simp only [hx0, if_true]
    split_ifs <;> omega
  · have h2 : ⌈x⌉ ≤ 0 := Int.ceil_le.mpr (by simpa using (not_le.mp hx0).le)
    simp only [hx0, if_false]
    split_ifs <;> omega

/-- One call of `incrementCurrentInterval` when `0 ≤ maxInterval ≤ 2 ^ 53`:
the configuration is untouched and the new cursor is at most `maxInterval`,
whatever the multiplier and the old cursor are. -/
theorem incrementCurrentInterval_le_max (b : exponentialBackoff)
    (hM0 : 0 ≤ b.maxInterval) (h53 : b.maxInterval ≤ 2 ^ 53) :
    b.incrementCurrentInterval.baseInterval = b.baseInterval
    ∧ b.incrementCurrentInterval.maxInterval = b.maxInterval
    ∧ b.incrementCurrentInterval.multiplier = b.multiplier
    ∧ b.incrementCurrentInterval.currentInterval ≤ b.maxInterval := by
  have hM : F64.Value.ofInt b.maxInterval = F64.Value.fin (b.maxInterval : ℚ) := by
    simp only [F64.Value.ofInt, F64.ofInt_exact _ hM0 h53]
  unfold exponentialBackoff.incrementCurrentInterval
  rw [hM]
  split_ifs with hgt
  · exact ⟨rfl, rfl, rfl, le_refl _⟩
  · refine ⟨rfl, rfl, rfl, ?_⟩
    simp only
    cases hv : (F64.Value.ofInt b.currentInterval).mul b.multiplier with
    | fin x =>
      rw [hv] at hgt
      simp only [F64.Value.lt, decide_eq_true_eq, not_lt] at hgt
      exact toInt64_le_of_le x _ hM0 hgt
    | posInf =>
      rw [hv] at hgt
      simp [F64.Value.lt] at hgt
    | negInf =>
      simp only [F64.Value.toInt64]
      omega
    | nan =>
      simp only [F64.Value.toInt64]
      omega

/-- One call of `incrementCurrentInterval` with a multiplier of at least 1
(for the infinite multiplier: on a positive cursor) and a cursor between 0
and `maxInterval ≤ 2 ^ 53`: the cursor does not decrease. -/
theorem incrementCurrentInterval_ge (b : exponentialBackoff)
    (hm : F64.Value.le 1 b.multiplier = true)
    (hinf : b.multiplier = F64.Value.posInf → 0 < b.currentInterval)
    (h53 : b.maxInterval ≤ 2 ^ 53)
    (h0 : 0 ≤ b.currentInterval) (hhi : b.currentInterval ≤ b.maxInterval) :
    b.currentInterval ≤ b.incrementCurrentInterval.currentInterval := by
  have hM : F64.Value.ofInt b.maxInterval = F64.Value.fin (b.maxInterval : ℚ) := by
    simp only [F64.Value.ofInt, F64.ofInt_exact _ (le_trans h0 hhi) h53]
  have hc : F64.Value.ofInt b.currentInterval = F64.Value.fin (b.currentInterval : ℚ) := by
    simp only [F64.Value.ofInt, F64.ofInt_exact _ h0 (le_trans hhi h53)]
  have hc0 : (0 : ℚ) ≤ (b.currentInterval : ℚ) := by exact_mod_cast h0
  unfold exponentialBackoff.incrementCurrentInterval
  rw [hM, hc]
  cases hmul : b.multiplier with
  | fin q =>
    rw [hmul] at hm
    have hq : (1 : ℚ) ≤ q := by
      have : F64.Value.le (F64.Value.fin ((1 : Nat) : ℚ)) (F64.Value.fin q) = true := hm
      simpa [F64.Value.le] using this
    have hprod : (b.currentInterval : ℚ) ≤ (b.currentInterval : ℚ) * q :=
      le_mul_of_one_le_right hc0 hq
    have hI : (b.currentInterval : ℚ) ≤ F64.mul (b.currentInterval : ℚ) q :=
      F64.round_ge_of_int_le _ _ h0 (le_trans hhi h53) hprod
    simp only [F64.Value.mul, F64.Value.ofRounded]
    by_cases hbig : (2 : ℚ) ^ 1024 ≤ F64.mul (b.currentInterval : ℚ) q
    · simp only [hbig, if_true, F64.Value.lt]
      exact hhi
    · have hneg : ¬ F64.mul (b.currentInterval : ℚ) q ≤ -2 ^ 1024 := by
        intro h
        have : (0 : ℚ) ≤ F64.mul (b.currentInterval : ℚ) q := le_trans hc0 hI
        have h2 : (0 : ℚ) < 2 ^ 1024 := by positivity
        linarith
      simp only [hbig, hneg, if_false, F64.Value.lt, decide_eq_true_eq]
      split_ifs with hgt
      · exact hhi
      · exact (toInt64_of_bounds _ _ _ h0 h53 hI (not_lt.mp hgt)).1
  | posInf =>
    have hpos := hinf hmul
    have hne : (b.currentInterval : ℚ) ≠ 0 := by
      have : (0 : ℚ) < (b.currentInterval : ℚ) := by exact_mod_cast hpos
      exact ne_of_gt this
    have hposq : (0 : ℚ) < (b.currentInterval : ℚ) := by exact_mod_cast hpos
    simp only [F64.Value.mul, F64.Value.infTimes, hne, hposq, if_false, if_true, F64.Value.lt]
    exact hhi
  | negInf =>
    rw [hmul] at hm
    exact absurd hm (by simp [F64.Value.le])
  | nan =>
    rw [hmul] at hm
    exact absurd hm (by simp [F64.Value.le])

theorem afterNexts_le_max (draws : List ℚ) :
    ∀ b : exponentialBackoff, 0 ≤ b.maxInterval → b.maxInterval ≤ 2 ^ 53 →
      b.currentInterval ≤ b.maxInterval →
      (b.afterNexts draws).currentInterval ≤ b.maxInterval := by
  induction draws with
  | nil => intro b _ _ hhi; exact hhi
  | cons d draws ih =>
    intro b hM0 h53 _
    obtain ⟨_, e2, _, h4⟩ := incrementCurrentInterval_le_max b hM0 h53
    have := ih b.incrementCurrentInterval (by rw [e2]; exact hM0) (by rw [e2]; exact h53)
      (by rw [e2]; exact h4)
    simp only [exponentialBackoff.afterNexts, exponentialBackoff.Next]
    rw [e2] at this
    exact this

theorem afterNexts_ge_base (draws : List ℚ) :
    ∀ b : exponentialBackoff, F64.Value.le 1 b.multiplier = true →
      (b.multiplier = F64.Value.posInf → 0 < b.baseInterval) →
      b.maxInterval ≤ 2 ^ 53 → 0 ≤ b.baseInterval → b.baseInterval ≤ b.currentInterval →
      b.currentInterval ≤ b.maxInterval →
      b.baseInterval ≤ (b.afterNexts draws).currentInterval := by
  induction draws with
  | nil => intro b _ _ _ _ hlo _; exact hlo
  | cons d draws ih =>
    intro b hm hinf h53 h0 hlo hhi
    obtain ⟨e1, e2, e3, h4⟩ := incrementCurrentInterval_le_max b (by omega) h53
    have hge := incrementCurrentInterval_ge b hm (fun h => by have := hinf h; omega) h53
      (by omega) hhi
    have := ih b.incrementCurrentInterval (by rw [e3]; exact hm)
      (by rw [e3, e1]; exact hinf) (by rw [e2]; exact h53) (by rw [e1]; exact h0)
      (by rw [e1]; omega) (by rw [e2]; exact h4)
    simp only [exponentialBackoff.afterNexts, exponentialBackoff.Next]
    rw [e1] at this
    exact this

/-- C8, amended: for every exponential backoff built by
`NewExponentialBackoff` with any options such that
`baseInterval ≤ maxInterval ≤ 2 ^ 53` nanoseconds (the range in which
`float64(maxInterval)` is exact), after every `Next()` call, for any number of
calls and any draws: `currentInterval ≤ maxInterval`, whatever multiplier is
stored (finite, infinite or NaN); and `baseInterval ≤ currentInterval` when
the stored multiplier is at least 1, provided `baseInterval > 0` if it is
`+Inf`, because `0 * Inf` is NaN. -/
theorem currentInterval_between_base_and_max (opts : List exponentialBackoffOption)
    (draws : List ℚ)
    (hle : (NewExponentialBackoff opts).baseInterval ≤ (NewExponentialBackoff opts).maxInterval)
    (h53 : (NewExponentialBackoff opts).maxInterval ≤ 2 ^ 53) :
    ((NewExponentialBackoff opts).afterNexts draws).currentInterval
        ≤ (NewExponentialBackoff opts).maxInterval
    ∧ (F64.Value.le 1 (NewExponentialBackoff opts).multiplier = true →
        ((NewExponentialBackoff opts).multiplier = F64.Value.posInf →
          0 < (NewExponentialBackoff opts).baseInterval) →
        (NewExponentialBackoff opts).baseInterval
          ≤ ((NewExponentialBackoff opts).afterNexts draws).currentInterval) := by
  have hb0 := NewExponentialBackoff_baseInterval_nonneg opts
  have hcur := NewExponentialBackoff_currentInterval opts
  constructor
  · exact afterNexts_le_max draws _ (by omega) h53 (by rw [hcur]; exact hle)
  · intro hm hinf
    exact afterNexts_ge_base draws _ hm hinf h53 hb0 (le_of_eq hcur.symm)
      (by rw [hcur]; exact hle)

/-- Witness for `currentInterval_between_base_and_max`: the default backoff
(multiplier 2, 500ms up to 60s) after three calls of `Next()`. -/
theorem currentInterval_between_base_and_max_witness :
    ((NewExponentialBackoff []).afterNexts [0, 1 / 2, 1 / 4]).currentInterval
        ≤ (NewExponentialBackoff []).maxInterval
    ∧ (NewExponentialBackoff []).baseInterval
        ≤ ((NewExponentialBackoff []).afterNexts [0, 1 / 2, 1 / 4]).currentInterval :=
  ⟨(currentInterval_between_base_and_max [] [0, 1 / 2, 1 / 4] (by decide!) (by decide!)).1,
    (currentInterval_between_base_and_max [] [0, 1 / 2, 1 / 4] (by decide!) (by decide!)).2
      (by decide!) (by decide!)⟩

end Retry

namespace Goalong

theorem total_append (f : Task → Nat) (a b : List Task) :
    total f (a ++ b) = total f a + total f b := by
  simp [total]

theorem total_set (f : Task → Nat) :
    ∀ (ts : List Task) (k : Nat) (t t' : Task), ts[k]? = some t →
      total f (ts.set k t') + f t = total f ts + f t' := by
  intro ts
  induction ts with
  | nil => intro k t t' h; simp at h
  | cons a ts ih =>
    intro k t t' h
    cases k with
    | zero =>
      simp only [List.getElem?_cons_zero, Option.some.injEq] at h
      subst h
      simp only [total, List.set_cons_zero, List.map_cons, List.sum_cons]
      omega
    | succ k =>
      simp only [List.getElem?_cons_succ] at h
      have := ih k t t' h
      simp only [total, List.set_cons_succ, List.map_cons, List.sum_cons] at this ⊢
      omega

theorem le_total (f : Task → Nat) :
    ∀ (ts : List Task) (t : Task), t ∈ ts → f t ≤ total f ts := by
  intro ts
  induction ts with
  | nil => intro t h; simp at h
  | cons a ts ih =>
    intro t h
    simp only [total, List.map_cons, List.sum_cons]
    rcases List.mem_cons.mp h with rfl | h
    · omega
    · have := ih t h
      simp only [total] at this
      omega

theorem Inv_init (c : Call) : Inv c State.init := by
  constructor <;> simp [State.init, started, State.inService, total]

theorem Inv_stepMain (c : Call) (s s' : State) (h0 : 0 ≤ c.limit) (hI : Inv c s)
    (hs : stepMain c s = some s') : Inv c s' := by
  obtain ⟨pc, buf, closed, wg, tasks⟩ := s
  obtain ⟨h1, h2, h3, h4, h5, h6, h7, h8, h9, h10, h11, h12⟩ := hI
  simp only at h1 h2 h3 h4 h5 h6 h7 h8 h9 h10 h11 h12
  cases pc with
  | init =>
    simp only [stepMain, not_lt.mpr h0, if_false, Option.some.injEq] at hs
    subst hs
    have hlen : tasks = [] := List.length_eq_zero.mp (by simpa [started] using h2)
    subst hlen
    obtain ⟨hw, hb⟩ := h6 rfl
    constructor <;> simp_all [started, State.inService, total]
  | fill i =>
    have hlen : tasks = [] := List.length_eq_zero.mp (by simpa [started] using h2)
    subst hlen
    obtain ⟨hb, hi⟩ := h9 i rfl
    have hcl : closed = false := by simpa using h5
    have hwg := h7 (by simp)
    subst hb hcl
    by_cases hlt : (buf : Int) < c.limit
    · simp only [stepMain, hlt, if_true, Bool.false_eq_true, if_false,
        Option.some.injEq] at hs
      subst hs
      refine ⟨by simp, by simp [started], by simp [started], by simp, by simp, by simp,
        fun _ => hwg, by simp, ?_, by simp [State.inService], by simp, by simp⟩
      intro i' hi'
      simp only [MainPc.fill.injEq] at hi'
      subst hi'
      exact ⟨rfl, by push_cast; omega⟩
    · simp only [stepMain, hlt, if_false, Option.some.injEq] at hs
      subst hs
      refine ⟨by simp, by simp [started], by simp [started], by simp, by simp, by simp,
        fun _ => hwg, by simp, by simp, ?_, by simp, by simp⟩
      intro _
      simp only [State.held, total, List.map_nil, List.sum_nil]
      omega
  | acquire j =>
    have hcl : closed = false := by simpa using h5
    subst hcl
    have hlen : tasks.length = j := by simpa [started] using h2
    have hjle : j ≤ c.fns.length := by simpa [started] using h3
    have hwg := h7 (by simp)
    have hper := h10 (by simp [State.inService])
    simp only [State.held] at hper
    by_cases hj : j < c.fns.length
    · by_cases hb : 0 < buf
      · simp only [stepMain, hj, hb, if_true, Option.some.injEq] at hs
        subst hs
        refine ⟨by simp, by simpa [started] using hlen, by simpa [started] using hjle, ?_,
          by simp, by simp, fun _ => hwg, by simp, by simp, ?_, by simp, h12⟩
        · intro j' hj'
          simp only [MainPc.spawn.injEq] at hj'
          omega
        · intro _
          simp only [State.held]
          omega
      · simp [stepMain, hj, hb] at hs
    · simp only [stepMain, hj, if_false, Option.some.injEq] at hs
      subst hs
      refine ⟨by simp, ?_, by simp [started], by simp, by simp, by simp, fun _ => hwg,
        by simp, by simp, ?_, by simp, h12⟩
      · simp only [started]; omega
      · intro _
        simp only [State.held]
        omega
  | spawn j =>
    have hcl : closed = false := by simpa using h5
    subst hcl
    simp only [stepMain, Option.some.injEq] at hs
    subst hs
    have hjlt := h4 j rfl
    have hlen : tasks.length = j := by simpa [started] using h2
    have hwg := h7 (by simp)
    have hper := h10 (by simp [State.inService])
    simp only [State.held] at hper
    refine ⟨by simp, ?_, ?_, by simp, by simp, by simp, ?_, by simp, by simp, ?_, by simp, ?_⟩
    · simp [started, hlen]
    · simp only [started]; omega
    · intro _
      simp only [List.length_append, List.length_singleton, total_append]
      rw [hwg, hlen]
      simp only [total, Task.pending, List.map_cons, List.map_nil, List.sum_cons, List.sum_nil]
      omega
    · intro _
      simp only [State.held, total_append]
      rw [← hper]
      simp only [total, Task.holding, List.map_cons, List.map_nil, List.sum_cons, List.sum_nil]
      omega
    · intro t ht
      rcases List.mem_append.mp ht with h | h
      · exact h12 t h
      · simp only [List.mem_singleton] at h
        subst h
        simp
  | wait =>
    have hcl : closed = false := by simpa using h5
    subst hcl
    by_cases hw : wg = 0
    · subst hw
      simp only [stepMain, if_true, Option.some.injEq] at hs
      subst hs
      have hper := h10 (by simp [State.inService])
      have hwg := h7 (by simp)
      refine ⟨by simp, by simpa [started] using h2, by simp [started], by simp, by simp,
        by simp, fun _ => hwg, by simp, by simp, ?_, by simp, h12⟩
      intro _
      simpa [State.held] using hper
    · simp [stepMain, hw] at hs
  | closing =>
    have hcl : closed = false := by simpa using h5
    subst hcl
    simp only [stepMain, Bool.false_eq_true, if_false, Option.some.injEq] at hs
    subst hs
    have hper := h10 (by simp [State.inService])
    have hwg := h7 (by simp)
    have hw0 := h8 (Or.inl rfl)
    refine ⟨by simp, by simpa [started] using h2, by simp [started], by simp, by simp,
      by simp, fun _ => hwg, fun _ => hw0, by simp, by simp [State.inService], ?_, h12⟩
    intro _
    have : ((State.held ⟨MainPc.returned, buf, true, wg, tasks⟩
        + (State.mk MainPc.returned buf true wg tasks).buf : Nat) : Int) = c.limit := by
      simpa [State.held] using hper
    omega
  | returned => simp [stepMain] at hs
  | panicked => simp [stepMain] at hs

theorem Inv_update (c : Call) (s : State) (k : Nat) (t t' : Task) (wg' : Int) (buf' : Nat)
    (hI : Inv c s) (hk : s.tasks[k]? = some t)
    (hruns : t'.runs = if t'.phase = Phase.ready then 0 else 1)
    (hwg : wg' + (t.pending : Int) = s.wg + (t'.pending : Int))
    (hwg0 : s.pc = MainPc.closing ∨ s.pc = MainPc.returned → wg' = 0)
    (heq : s.inService = true → t'.holding + buf' = t.holding + s.buf)
    (hle : s.pc = MainPc.returned → t'.holding + buf' ≤ t.holding + s.buf) :
    Inv c { s with tasks := s.tasks.set k t', wg := wg', buf := buf' } := by
  have hlen0 : 0 < s.tasks.length := by
    rcases Nat.eq_zero_or_pos s.tasks.length with h | h
    · have : s.tasks = [] := List.length_eq_zero.mp h
      rw [this] at hk
      simp at hk
    · exact h
  have hst : 0 < started c s.pc := by rw [← hI.length_eq]; exact hlen0
  have hninit : s.pc ≠ MainPc.init := by
    intro h; rw [h] at hst; simp [started] at hst
  have hnfill : ∀ i, s.pc ≠ MainPc.fill i := by
    intro i h; rw [h] at hst; simp [started] at hst
  have hP := total_set Task.pending s.tasks k t t' hk
  have hH := total_set Task.holding s.tasks k t t' hk
  refine ⟨hI.notPanicked, ?_, hI.started_le, hI.spawn_lt, hI.closed_iff, ?_, ?_, hwg0, ?_, ?_, ?_,
    ?_⟩
  · simpa using hI.length_eq
  · intro h; exact absurd h hninit
  · intro _
    have := hI.wg_eq hninit
    simp only [List.length_set]
    omega
  · intro i h; exact absurd h (hnfill i)
  · intro h
    have h1 := hI.permits_eq h
    have h2 := heq h
    simp only [State.held] at h1 ⊢
    omega
  · intro h
    have h1 := hI.permits_le h
    have h2 := hle h
    simp only [State.held] at h1 ⊢
    omega
  · intro x hx
    rcases List.mem_or_eq_of_mem_set hx with h | h
    · exact hI.runs_eq x h
    · rw [h]; exact hruns

theorem Inv_stepTask (c : Call) (s s' : State) (k : Nat) (kind : TaskKind) (t : Task)
    (hI : Inv c s) (hk : s.tasks[k]? = some t) (hs : stepTask c s k kind t = some s') :
    Inv c s' := by
  have hmem : t ∈ s.tasks := List.getElem?_mem hk
  have hr := hI.runs_eq t hmem
  obtain ⟨phase, runs, logs⟩ := t
  cases phase with
  | ready =>
    simp only [if_true] at hr
    subst hr
    cases kind with
    | nilFunc =>
      simp only [stepTask, Option.some.injEq] at hs
      subst hs
      exact Inv_update c s k ⟨Phase.ready, 0, logs⟩ ⟨Phase.finished true, 0 + 1, logs⟩ s.wg s.buf
        hI hk (by simp) (by simp [Task.pending]) hI.wg_zero (by simp [Task.holding])
        (by simp [Task.holding])
    | returns =>
      simp only [stepTask, Option.some.injEq] at hs
      subst hs
      exact Inv_update c s k ⟨Phase.ready, 0, logs⟩ ⟨Phase.running, 0 + 1, logs⟩ s.wg s.buf
        hI hk (by simp) (by simp [Task.pending]) hI.wg_zero (by simp [Task.holding])
        (by simp [Task.holding])
    | panics =>
      simp only [stepTask, Option.some.injEq] at hs
      subst hs
      exact Inv_update c s k ⟨Phase.ready, 0, logs⟩ ⟨Phase.running, 0 + 1, logs⟩ s.wg s.buf
        hI hk (by simp) (by simp [Task.pending]) hI.wg_zero (by simp [Task.holding])
        (by simp [Task.holding])
    | blocks =>
      simp only [stepTask, Option.some.injEq] at hs
      subst hs
      exact Inv_update c s k ⟨Phase.ready, 0, logs⟩ ⟨Phase.running, 0 + 1, logs⟩ s.wg s.buf
        hI hk (by simp) (by simp [Task.pending]) hI.wg_zero (by simp [Task.holding])
        (by simp [Task.holding])
  | running =>
    simp only [if_false] at hr
    cases kind with
    | returns =>
      simp only [stepTask, Option.some.injEq] at hs
      subst hs
      exact Inv_update c s k ⟨Phase.running, runs, logs⟩ ⟨Phase.finished false, runs, logs⟩
        s.wg s.buf hI hk (by simp [hr]) (by simp [Task.pending]) hI.wg_zero
        (by simp [Task.holding]) (by simp [Task.holding])
    | panics =>
      simp only [stepTask, Option.some.injEq] at hs
      subst hs
      exact Inv_update c s k ⟨Phase.running, runs, logs⟩ ⟨Phase.finished true, runs, logs⟩
        s.wg s.buf hI hk (by simp [hr]) (by simp [Task.pending]) hI.wg_zero
        (by simp [Task.holding]) (by simp [Task.holding])
    | blocks => simp [stepTask] at hs
    | nilFunc => simp [stepTask] at hs
  | finished p =>
    simp only [if_false] at hr
    have hpend : 1 ≤ total Task.pending s.tasks := by
      have := le_total Task.pending s.tasks _ hmem
      simpa [Task.pending] using this
    have hlen0 : s.tasks ≠ [] := List.ne_nil_of_mem hmem
    have hninit : s.pc ≠ MainPc.init := by
      intro h
      have := hI.length_eq
      rw [h] at this
      exact hlen0 (List.length_eq_zero.mp (by simpa [started] using this))
    have hwg := hI.wg_eq hninit
    have hnz : ¬ (s.pc = MainPc.closing ∨ s.pc = MainPc.returned) := by
      intro h
      have := hI.wg_zero h
      omega
    have hge : ¬ (s.wg - 1 < 0) := by omega
    simp only [stepTask, hge, if_false, Option.some.injEq] at hs
    subst hs
    exact Inv_update c s k ⟨Phase.finished p, runs, logs⟩ ⟨Phase.doneWg p, runs, logs⟩
      (s.wg - 1) s.buf hI hk (by simp [hr]) (by simp [Task.pending])
      (fun h => absurd h hnz) (by simp [Task.holding]) (by simp [Task.holding])
  | doneWg p =>
    simp only [if_false] at hr
    by_cases hcl : s.closed = true
    · simp only [stepTask] at hs
      rw [if_pos hcl] at hs
      simp only [Option.some.injEq] at hs
      subst hs
      exact Inv_update c s k ⟨Phase.doneWg p, runs, logs⟩ ⟨Phase.exited, runs, logs + 1⟩
        s.wg s.buf hI hk (by simp [hr]) (by simp [Task.pending]) hI.wg_zero
        (by intro h; simp [State.inService, hcl] at h) (by simp [Task.holding])
    · have hnr : s.pc ≠ MainPc.returned := fun h => hcl (hI.closed_iff.mpr h)
      by_cases hb : (s.buf : Int) < c.limit
      · simp only [stepTask] at hs
        rw [if_neg hcl, if_pos hb] at hs
        simp only [Option.some.injEq] at hs
        subst hs
        exact Inv_update c s k ⟨Phase.doneWg p, runs, logs⟩
          ⟨Phase.exited, runs, logs + (if p = true then 1 else 0)⟩
          s.wg (s.buf + 1) hI hk (by simp [hr]) (by simp [Task.pending]) hI.wg_zero
          (by intro _; simp [Task.holding]; omega) (fun h => absurd h hnr)
      · simp only [stepTask] at hs
        rw [if_neg hcl, if_neg hb] at hs
        exact absurd hs (by simp)
  | exited => simp [stepTask] at hs

theorem Inv_step (c : Call) (s s' : State) (ch : Choice) (h0 : 0 ≤ c.limit) (hI : Inv c s)
    (hs : step c s ch = some s') : Inv c s' := by
  cases ch with
  | main => exact Inv_stepMain c s s' h0 hI hs
  | task k =>
    simp only [step] at hs
    cases hkind : c.fns[k]? with
    | none => simp [hkind] at hs
    | some kind =>
      cases ht : s.tasks[k]? with
      | none => simp [hkind, ht] at hs
      | some t =>
        simp only [hkind, ht] at hs
        exact Inv_stepTask c s s' k kind t hI ht hs

theorem Inv_exec (c : Call) (h0 : 0 ≤ c.limit) (sched : List Choice) :
    ∀ s, Inv c s → Inv c (exec c sched s) := by
  induction sched with
  | nil => intro s hI; exact hI
  | cons ch rest ih =>
    intro s hI
    simp only [exec]
    cases hs : step c s ch with
    | none => exact ih s hI
    | some s' => exact ih s' (Inv_step c s s' ch h0 hI hs)

theorem total_le_total (f g : Task → Nat) (h : ∀ t, f t ≤ g t) :
    ∀ ts : List Task, total f ts ≤ total g ts := by
  intro ts
  induction ts with
  | nil => simp [total]
  | cons a ts ih =>
    have := h a
    simp only [total, List.map_cons, List.sum_cons] at ih ⊢
    omega

theorem executing_le_holding (t : Task) : t.executing ≤ t.holding := by
  obtain ⟨phase, runs, logs⟩ := t
  cases phase <;> simp [Task.executing, Task.holding]

theorem Inv_executing_le (c : Call) (s : State) (h0 : 0 ≤ c.limit) (hI : Inv c s) :
    (s.executing : Int) ≤ c.limit := by
  have h1 : s.executing ≤ total Task.holding s.tasks :=
    total_le_total _ _ executing_le_holding s.tasks
  have h2 : total Task.holding s.tasks ≤ s.held := by simp [State.held]
  by_cases hs : s.inService = true
  · have := hI.permits_eq hs
    omega
  · by_cases hr : s.pc = MainPc.returned
    · have := hI.permits_le hr
      omega
    · have hcl : s.closed = false := by
        cases h : s.closed with
        | false => rfl
        | true => exact absurd (hI.closed_iff.mp h) hr
      have hlen := hI.length_eq
      have h3 : started c s.pc = 0 := by
        revert hs hr
        simp only [State.inService, hcl]
        cases s.pc <;> simp [started]
      have h4 : s.tasks = [] := List.length_eq_zero.mp (by omega)
      simp only [State.executing, h4, total, List.map_nil, List.sum_nil]
      exact_mod_cast h0

/-- Supporting fact for C9, the concurrency bound and the permit count while
the pool is in service: for every `limit ≥ 1`, every list of tasks and every
schedule, in every state the call goes through the number of task functions
being executed is at most `limit`; and as long as the permit pool is in service (from the end
of the filling loop until `ch` is closed on return) the number of permits held
(one by each started goroutine that has not yet sent it back, one by the
caller between its receive and the `Go` that follows) plus the number
buffered in `ch` is exactly `limit`.  A goroutine exists only after the caller
took a permit for it. -/
theorem executing_le_limit (c : Call) (sched : List Choice) (hl : 1 ≤ c.limit) :
    ((exec c sched State.init).executing : Int) ≤ c.limit
    ∧ ((exec c sched State.init).inService = true →
        (((exec c sched State.init).held + (exec c sched State.init).buf : Nat) : Int)
          = c.limit) := by
  have h0 : 0 ≤ c.limit := by omega
  have hI := Inv_exec c h0 sched State.init (Inv_init c)
  exact ⟨Inv_executing_le c _ h0 hI, hI.permits_eq⟩

theorem pending_zero_of_total (ts : List Task) (h : total Task.pending ts = 0) :
    ∀ t, t ∈ ts → t.pending = 0 := by
  intro t ht
  have := le_total Task.pending ts t ht
  omega

theorem Inv_returned (c : Call) (s : State) (hI : Inv c s) (hr : s.pc = MainPc.returned) :
    s.tasks.length = c.fns.length
    ∧ ∀ t, t ∈ s.tasks → t.runs = 1 ∧ (t.phase = Phase.exited ∨ ∃ p, t.phase = Phase.doneWg p) := by
  have hlen : s.tasks.length = c.fns.length := by
    have := hI.length_eq
    rw [hr] at this
    simpa [started] using this
  refine ⟨hlen, ?_⟩
  have hw0 := hI.wg_zero (Or.inr hr)
  have hwg := hI.wg_eq (by rw [hr]; simp)
  have hp0 : total Task.pending s.tasks = 0 := by omega
  intro t ht
  have hpt := pending_zero_of_total s.tasks hp0 t ht
  have hrt := hI.runs_eq t ht
  obtain ⟨phase, runs, logs⟩ := t
  cases phase <;> simp_all [Task.pending]

theorem exec_fill (c : Call) (rest : List Choice) (wg : Int) :
    ∀ (n i : Nat), ((i + n : Nat) : Int) = c.limit →
      exec c (List.replicate n Choice.main ++ rest) ⟨MainPc.fill i, i, false, wg, []⟩
        = exec c rest ⟨MainPc.fill (i + n), i + n, false, wg, []⟩ := by
  intro n
  induction n with
  | zero => intro i _; rfl
  | succ n ih =>
    intro i hi
    have hlt : (i : Int) < c.limit := by omega
    rw [List.replicate_succ, List.cons_append]
    simp only [exec, step, stepMain, hlt, if_true, Bool.false_eq_true, if_false]
    rw [ih (i + 1) (by omega), show i + 1 + n = i + (n + 1) by omega]

theorem exec_no_tasks (c : Call) (h0 : 0 ≤ c.limit) (hN : c.fns = []) :
    exec c (List.replicate (c.limit.toNat + 5) Choice.main) State.init
      = ⟨MainPc.returned, c.limit.toNat, true, 0, []⟩ := by
  have hsplit : List.replicate (c.limit.toNat + 5) Choice.main
      = Choice.main :: (List.replicate c.limit.toNat Choice.main
          ++ [Choice.main, Choice.main, Choice.main, Choice.main]) := by
    rw [show c.limit.toNat + 5 = (c.limit.toNat + 4) + 1 by omega, List.replicate_succ,
      List.replicate_add]
    rfl
  have hnl : ¬ c.limit < 0 := by omega
  rw [hsplit]
  simp only [exec, step, stepMain, State.init, hnl, if_false, hN, List.length_nil,
    Nat.cast_zero, add_zero]
  rw [exec_fill c _ 0 c.limit.toNat 0 (by omega)]
  have hnlt : ¬ ((0 + c.limit.toNat : Nat) : Int) < c.limit := by omega
  simp [exec, step, stepMain, hnlt, hN]

/-- C10: for every `limit ≥ 1` and every list of `N ≥ 0` tasks, in every
schedule, when `GoWaitsWithLimit` has returned, `N` goroutines were started,
one per task, and each of them has executed the statement `f()` exactly once
and is past it: it has called `wg.Done()` or is over.  The context plays no
part: it is only handed to the logger.  With `N = 0` the call returns, after
`limit + 5` actions of the caller, without having started anything. -/
theorem returned_only_after_all_finished (c : Call) (hl : 1 ≤ c.limit) :
    (∀ sched : List Choice, (exec c sched State.init).pc = MainPc.returned →
      (exec c sched State.init).tasks.length = c.fns.length
      ∧ ∀ t, t ∈ (exec c sched State.init).tasks →
          t.runs = 1 ∧ (t.phase = Phase.exited ∨ ∃ p, t.phase = Phase.doneWg p))
    ∧ (c.fns = [] →
        (exec c (List.replicate (c.limit.toNat + 5) Choice.main) State.init).pc
            = MainPc.returned
          ∧ (exec c (List.replicate (c.limit.toNat + 5) Choice.main) State.init).tasks = []) := by
  have h0 : 0 ≤ c.limit := by omega
  constructor
  · intro sched hr
    exact Inv_returned c _ (Inv_exec c h0 sched State.init (Inv_init c)) hr
  · intro hN
    rw [exec_no_tasks c h0 hN]
    exact ⟨rfl, rfl⟩

/-- Witness for `executing_le_limit`: `limit = 2` and three tasks, at the
moment when the first two are inside their task functions. -/
theorem executing_le_limit_witness :
    ((exec sampleCall sampleScheduleTwoRunning State.init).executing : Int) ≤ sampleCall.limit
    ∧ ((exec sampleCall sampleScheduleTwoRunning State.init).inService = true →
        (((exec sampleCall sampleScheduleTwoRunning State.init).held
            + (exec sampleCall sampleScheduleTwoRunning State.init).buf : Nat) : Int)
          = sampleCall.limit) :=
  executing_le_limit sampleCall sampleScheduleTwoRunning (by decide)

/-- Witness for `returned_only_after_all_finished`: `limit = 2` and three
tasks, with a schedule in which the call returns while the last goroutine has
called `wg.Done()` and not yet sent its permit. -/
theorem returned_only_after_all_finished_witness :
    (exec sampleCall sampleScheduleReturned State.init).tasks.length = sampleCall.fns.length
    ∧ ∀ t, t ∈ (exec sampleCall sampleScheduleReturned State.init).tasks →
        t.runs = 1 ∧ (t.phase = Phase.exited ∨ ∃ p, t.phase = Phase.doneWg p) :=
  (returned_only_after_all_finished sampleCall (by decide)).1 sampleScheduleReturned
    (by decide)

end Goalong

namespace Retry

/-! ## Stop backoff, nil backoff, time budget, constant backoff -/

theorem DoLoop_summary_congr_next {σ τ : Type} (next1 : σ → Int × σ) (next2 : τ → Int × τ)
    (r1 : retryer σ) (r2 : retryer τ) (env : Env)
    (hm : r1.maxRetryTime = r2.maxRetryTime) (he : r1.maxElapsedTime = r2.maxElapsedTime) :
    ∀ (fuel calls : Nat) (w1 w2 : List Int) (rt : Int) (b1 : σ) (b2 : τ),
      w1.length = w2.length →
      (DoLoop next1 r1 env fuel calls w1 rt b1).map Outcome.summary
        = (DoLoop next2 r2 env fuel calls w2 rt b2).map Outcome.summary := by
  intro fuel
  induction fuel with
  | zero => intros; rfl
  | succ fuel ih =>
    intro calls w1 w2 rt b1 b2 hlen
    have hat : attemptsExhausted r1 rt = attemptsExhausted r2 rt := by
      simp [attemptsExhausted, hm]
    have hti : timeExhausted r1 (env.since calls) = timeExhausted r2 (env.since calls) := by
      simp [timeExhausted, he]
    simp only [DoLoop, hat, hti]
    cases env.fn calls with
    | none => simp [Outcome.summary, Outcome.nexts, hlen]
    | some e =>
      by_cases hp : e.isPermanent = true
      · simp [hp, Outcome.summary, Outcome.nexts, hlen]
      · by_cases h1 : attemptsExhausted r2 rt = true
        · simp [hp, h1, Outcome.summary, Outcome.nexts, hlen]
        · by_cases h2 : timeExhausted r2 (env.since calls) = true
          · simp [hp, h1, h2, Outcome.summary, Outcome.nexts, hlen]
          · cases hd : env.done calls with
            | some ce => simp [hp, h1, h2, Outcome.summary, Outcome.nexts, hlen]
            | none =>
              simp only [hp, h1, h2, Bool.false_eq_true, if_false]
              exact ih _ _ _ _ _ _ (by simp [hlen])

/-- C12, as stated, fails: with the stop backoff, `maxRetryTime = 3`, a time
budget of 60s of which nothing is used, no cancellation and an operation that
fails with a non-permanent error on every call, `Do` invokes the operation 4
times, not once, and the error it returns is `MaxRetryTimeError`. -/
theorem C12_counterexample :
    (Do stopBackoff.Next ⟨3, 60 * Second, some ()⟩ alwaysFails 10).map Outcome.summary
      = some (some Err.MaxRetryTimeError, 4, 3, 3)
    ∧ (Do stopBackoff.Next ⟨3, 60 * Second, some ()⟩ alwaysFails 10).map Outcome.calls
      ≠ some 1 := by
  decide

/-- C12, amended: `StopBackoff.Next()` always returns the negative duration
`-1`, and `Do` does not interpret it: the value is handed to the timer like
any other wait.  For every retryer, every operation, clock and `select`
outcomes, `Do` with the stop backoff returns the same error after the same
number of invocations and of `Next()` calls as `Do` with the zero backoff;
there is no dedicated stop error. -/
theorem Do_stopBackoff_as_zeroBackoff (r : retryer Unit) (env : Env) (fuel : Nat) :
    (stopBackoff.Next ()).1 = -1
    ∧ (Do stopBackoff.Next r env fuel).map Outcome.summary
        = (Do zeroBackoff.Next r env fuel).map Outcome.summary := by
  refine ⟨rfl, ?_⟩
  cases hb : r.backoff with
  | none => simp [Do, hb]
  | some b =>
    have := DoLoop_summary_congr_next stopBackoff.Next zeroBackoff.Next r r env rfl rfl
      fuel 0 [] [] 0 b b rfl
    simp only [Do, hb]
    cases h1 : DoLoop stopBackoff.Next r env fuel 0 [] 0 b with
    | none =>
      rw [h1] at this
      cases h2 : DoLoop zeroBackoff.Next r env fuel 0 [] 0 b with
      | none => rfl
      | some o2 => rw [h2] at this; simp at this
    | some o1 =>
      rw [h1] at this
      cases h2 : DoLoop zeroBackoff.Next r env fuel 0 [] 0 b with
      | none => rw [h2] at this; simp at this
      | some o2 =>
        rw [h2] at this
        simp only [Option.map_some', Option.some.injEq] at this
        simpa [Outcome.summary, Outcome.nexts] using this

/-- C13: for a retryer whose backoff is nil, `Do` returns the configuration
error, which is not nil, and invokes the operation zero times, for every
operation, clock and context, and needs no iteration of the loop; the
retryers built by the package-level `WithMaxRetryTime` and
`WithMaxElapsedTime` alone are such retryers. -/
theorem Do_nil_backoff {σ : Type} (next : σ → Int × σ) (r : retryer σ) (env : Env)
    (fuel : Nat) (hb : r.backoff = none) :
    (Do next r env fuel).map Outcome.summary = some (some Err.noBackoff, 0, 0, 0)
    ∧ (∀ n : Int, (WithMaxRetryTime n : retryer σ).backoff = none)
    ∧ (∀ n : Int, (WithMaxElapsedTime n : retryer σ).backoff = none) := by
  refine ⟨?_, fun _ => rfl, fun _ => rfl⟩
  simp [Do, hb, Outcome.summary, Outcome.nexts]

/-- Witness for `Do_nil_backoff`: the retryer `WithMaxRetryTime(3)`, with no
fuel at all. -/
theorem Do_nil_backoff_witness :
    (Do zeroBackoff.Next (WithMaxRetryTime 3 : retryer Unit) alwaysFails 0).map Outcome.summary
      = some (some Err.noBackoff, 0, 0, 0)
    ∧ (∀ n : Int, (WithMaxRetryTime n : retryer Unit).backoff = none)
    ∧ (∀ n : Int, (WithMaxElapsedTime n : retryer Unit).backoff = none) :=
  Do_nil_backoff zeroBackoff.Next (WithMaxRetryTime 3 : retryer Unit) alwaysFails 0 rfl

/-- C15: for every `d ≥ 0` the backoff `NewConstantBackoff(d)` returns `d` on
every call of `Next()`, for any number `n` of calls; for every `d < 0` it
returns 500ms on every call. -/
theorem constantBackoff_nextValues (d : Int) (n : Nat) :
    (0 ≤ d → (NewConstantBackoff d).nextValues n = List.replicate n d)
    ∧ (d < 0 → (NewConstantBackoff d).nextValues n = List.replicate n (500 * Millisecond)) := by
  have key : ∀ (b : constantBackoff) (n : Nat), b.nextValues n = List.replicate n b.interval := by
    intro b n
    induction n with
    | zero => rfl
    | succ n ih =>
      simp only [constantBackoff.nextValues, constantBackoff.Next, List.replicate_succ]
      rw [← ih]
  constructor
  · intro h
    rw [key]
    simp [NewConstantBackoff, not_lt.mpr h]
  · intro h
    rw [key]
    simp [NewConstantBackoff, h, defaultConstantInterval]

/-- Witness for `constantBackoff_nextValues`: `d = 250ms` and `d = -7`, three
calls each. -/
theorem constantBackoff_nextValues_witness :
    (NewConstantBackoff (250 * Millisecond)).nextValues 3
      = List.replicate 3 (250 * Millisecond)
    ∧ (NewConstantBackoff (-7)).nextValues 3 = List.replicate 3 (500 * Millisecond) :=
  ⟨(constantBackoff_nextValues (250 * Millisecond) 3).1 (by decide),
    (constantBackoff_nextValues (-7) 3).2 (by decide)⟩

/-! ## Time budget, unlimited attempts, termination -/

theorem DoLoop_waits_le {σ : Type} (next : σ → Int × σ) (r : retryer σ) (env : Env) :
    ∀ (fuel calls : Nat) (waits : List Int) (rt : Int) (b : σ) (o : Outcome σ),
      DoLoop next r env fuel calls waits rt b = some o → waits.length ≤ o.waits.length := by
  intro fuel
  induction fuel with
  | zero => intro calls waits rt b o h; simp [DoLoop] at h
  | succ fuel ih =>
    intro calls waits rt b o h
    simp only [DoLoop] at h
    cases hfn : env.fn calls with
    | none =>
      simp only [hfn, Option.some.injEq] at h
      subst h; exact le_refl _
    | some e =>
      simp only [hfn] at h
      split_ifs at h with h1 h2 h3
      · simp only [Option.some.injEq] at h; subst h; exact le_refl _
      · simp only [Option.some.injEq] at h; subst h; exact le_refl _
      · simp only [Option.some.injEq] at h; subst h; exact le_refl _
      · cases hd : env.done calls with
        | some ce =>
          simp only [hd, Option.some.injEq] at h
          subst h; simp
        | none =>
          simp only [hd] at h
          have := ih _ _ _ _ _ h
          simp only [List.length_append, List.length_singleton] at this
          omega

/-- C14: for a retryer with `maxElapsedTime > 0` and a non-nil backoff, at the
failed invocation number `k` (counting from 0; non-permanent error, attempt
budget not exhausted): if `time.Since(startTime)` exceeds `maxElapsedTime`,
`Do` returns `MaxElapsedTimeError` with `k + 1` invocations and `k` calls of
`Next()` in total, so without a further call of either; if it does not, `Do`
goes on to call `Next()`, so every outcome has at least `k + 1` calls of
`Next()` and the return does not happen at that point.  The invocation number
`k` is reached when each earlier one failed with a non-permanent error, left
both budgets unexhausted and was followed by a wait that the timer won. -/
theorem Do_time_budget {σ : Type} (next : σ → Int × σ) (r : retryer σ) (b : σ)
    (env : Env) (k : Nat)
    (hb : r.backoff = some b) (_hpos : 0 < r.maxElapsedTime) (hk : (k : Int) < 2 ^ 63)
    (hfn : ∀ i, i ≤ k → ∃ e', env.fn i = some e' ∧ e'.isPermanent = false)
    (hat : ∀ i : Nat, i ≤ k → attemptsExhausted r (i : Int) = false)
    (hti : ∀ i, i < k → timeExhausted r (env.since i) = false)
    (hdn : ∀ i, i < k → env.done i = none) :
    (env.since k > r.maxElapsedTime → ∀ fuel, k + 1 ≤ fuel →
      (Do next r env fuel).map Outcome.summary
        = some (some Err.MaxElapsedTimeError, k + 1, k, (k : Int)))
    ∧ (¬ env.since k > r.maxElapsedTime → ∀ fuel o,
        Do next r env fuel = some o → k + 1 ≤ o.nexts) := by
  obtain ⟨e, he, hp⟩ := hfn k (le_refl _)
  have hatk := hat k (le_refl _)
  constructor
  · intro hgt fuel hfuel
    obtain ⟨f, rfl⟩ : ∃ f, fuel = (f + 1) + k := ⟨fuel - (k + 1), by omega⟩
    obtain ⟨waits', b', hlen, heq⟩ := DoLoop_advance next r env k (f + 1) 0 [] 0 b
      (le_refl _) (by omega)
      (fun i hi => by simpa using hfn i (le_of_lt hi))
      (fun i hi => by simpa using hat i (le_of_lt hi))
      (fun i hi => by simpa using hti i hi)
      (fun i hi => by simpa using hdn i hi)
    have htik : timeExhausted r (env.since k) = true := by simp [timeExhausted, hgt]
    simp only [Nat.zero_add, zero_add] at heq
    simp only [Do, hb, heq, DoLoop, he, hp, hatk, htik, Bool.false_eq_true, if_false, if_true,
      Option.map_some', Outcome.summary, Outcome.nexts]
    simp [hlen]
  · intro hle fuel o ho
    have htik : timeExhausted r (env.since k) = false := by simp [timeExhausted, hle]
    simp only [Do, hb, Option.map_eq_some'] at ho
    obtain ⟨o', ho', rfl⟩ := ho
    simp only [Outcome.nexts]
    by_cases hfuel : k + 1 ≤ fuel
    · obtain ⟨f, rfl⟩ : ∃ f, fuel = (f + 1) + k := ⟨fuel - (k + 1), by omega⟩
      obtain ⟨waits', b', hlen, heq⟩ := DoLoop_advance next r env k (f + 1) 0 [] 0 b
        (le_refl _) (by omega)
        (fun i hi => by simpa using hfn i (le_of_lt hi))
        (fun i hi => by simpa using hat i (le_of_lt hi))
        (fun i hi => by simpa using hti i hi)
        (fun i hi => by simpa using hdn i hi)
      simp only [Nat.zero_add, zero_add] at heq
      rw [heq] at ho'
      simp only [DoLoop, he, hp, hatk, htik, Bool.false_eq_true, if_false] at ho'
      simp only [List.length_nil, Nat.zero_add] at hlen
      cases hd : env.done k with
      | some ce =>
        simp only [hd, Option.some.injEq] at ho'
        subst ho'
        simp [hlen]
      | none =>
        simp only [hd] at ho'
        have := DoLoop_waits_le next r env _ _ _ _ _ _ ho'
        simp only [List.length_append, List.length_singleton, hlen] at this
        exact this
    · exfalso
      obtain ⟨waits', b', _, heq⟩ := DoLoop_advance next r env fuel 0 0 [] 0 b
        (le_refl _) (by omega)
        (fun i hi => by simpa using hfn i (by omega))
        (fun i hi => by simpa using hat i (by omega))
        (fun i hi => by simpa using hti i (by omega))
        (fun i hi => by simpa using hdn i (by omega))
      simp only [Nat.zero_add] at heq
      rw [heq] at ho'
      simp [DoLoop] at ho'

/-- Witness for `Do_time_budget`: a budget of 5ns; the clock reads 0 after
the first invocation and 9 after the second, where `Do` stops. -/
theorem Do_time_budget_witness :
    (Do zeroBackoff.Next (⟨0, 5, some ()⟩ : retryer Unit)
        ⟨fun _ => some (Err.other 0), fun i => if i = 0 then 0 else 9, fun _ => none⟩
        2).map Outcome.summary
      = some (some Err.MaxElapsedTimeError, 1 + 1, 1, ((1 : Nat) : Int)) :=
  (Do_time_budget zeroBackoff.Next (⟨0, 5, some ()⟩ : retryer Unit) ()
    ⟨fun _ => some (Err.other 0), fun i => if i = 0 then 0 else 9, fun _ => none⟩ 1
    rfl (by decide) (by decide)
    (fun _ _ => ⟨Err.other 0, rfl, rfl⟩)
    (fun _ _ => by simp [attemptsExhausted])
    (fun i hi => by
      obtain rfl : i = 0 := by omega
      decide)
    (fun _ _ => rfl)).1 (by decide) 2 (by decide)

theorem attemptsExhausted_false_of_nonpos {σ : Type} (r : retryer σ) (rt : Int)
    (hr : r.maxRetryTime ≤ 0) : attemptsExhausted r rt = false := by
  simp [attemptsExhausted, not_lt.mpr hr]

theorem isPermanent_ne_MaxRetryTimeError (e : Err) (hp : e.isPermanent = true) :
    e ≠ Err.MaxRetryTimeError := by
  intro h
  rw [h] at hp
  simp [Err.isPermanent] at hp

theorem DoLoop_never_MaxRetryTimeError {σ : Type} (next : σ → Int × σ) (r : retryer σ)
    (env : Env) (hr : r.maxRetryTime ≤ 0)
    (hctx : ∀ i, env.done i ≠ some Err.MaxRetryTimeError) :
    ∀ (fuel calls : Nat) (waits : List Int) (rt : Int) (b : σ) (o : Outcome σ),
      DoLoop next r env fuel calls waits rt b = some o → o.err ≠ some Err.MaxRetryTimeError := by
  intro fuel
  induction fuel with
  | zero => intro calls waits rt b o h; simp [DoLoop] at h
  | succ fuel ih =>
    intro calls waits rt b o h
    simp only [DoLoop, attemptsExhausted_false_of_nonpos r rt hr, Bool.false_eq_true,
      if_false] at h
    cases hfn : env.fn calls with
    | none =>
      simp only [hfn, Option.some.injEq] at h
      subst h; simp
    | some e =>
      simp only [hfn] at h
      split_ifs at h with h1 h3
      · simp only [Option.some.injEq] at h
        subst h
        simpa using isPermanent_ne_MaxRetryTimeError e h1
      · simp only [Option.some.injEq] at h; subst h; simp
      · cases hd : env.done calls with
        | some ce =>
          simp only [hd, Option.some.injEq] at h
          subst h
          have := hctx calls
          rw [hd] at this
          simpa using this
        | none =>
          simp only [hd] at h
          exact ih _ _ _ _ _ h

theorem DoLoop_advance_unlimited {σ : Type} (next : σ → Int × σ) (r : retryer σ) (env : Env)
    (hr : r.maxRetryTime ≤ 0) (k : Nat) :
    ∀ (fuel calls : Nat) (waits : List Int) (rt : Int) (b : σ),
      (∀ i, i < k → ∃ e, env.fn (calls + i) = some e ∧ e.isPermanent = false) →
      (∀ i, i < k → timeExhausted r (env.since (calls + i)) = false) →
      (∀ i, i < k → env.done (calls + i) = none) →
      ∃ (waits' : List Int) (rt' : Int) (b' : σ), waits'.length = waits.length + k ∧
        DoLoop next r env (fuel + k) calls waits rt b
          = DoLoop next r env fuel (calls + k) waits' rt' b' := by
  induction k with
  | zero =>
    intro fuel calls waits rt b _ _ _
    exact ⟨waits, rt, b, by simp, by simp⟩
  | succ k ih =>
    intro fuel calls waits rt b hfn hti hdn
    obtain ⟨e, he, hp⟩ := hfn 0 (Nat.succ_pos k)
    have hti0 := hti 0 (Nat.succ_pos k)
    have hdn0 := hdn 0 (Nat.succ_pos k)
    simp only [Nat.add_zero] at he hti0 hdn0
    obtain ⟨waits', rt', b', hlen, heq⟩ := ih fuel (calls + 1) (waits ++ [(next b).1])
      (wrap64 (rt + 1)) (next b).2
      (fun i hi => by
        have := hfn (i + 1) (by omega)
        rwa [show calls + (i + 1) = calls + 1 + i by omega] at this)
      (fun i hi => by
        have := hti (i + 1) (by omega)
        rwa [show calls + (i + 1) = calls + 1 + i by omega] at this)
      (fun i hi => by
        have := hdn (i + 1) (by omega)
        rwa [show calls + (i + 1) = calls + 1 + i by omega] at this)
    refine ⟨waits', rt', b', by simp at hlen; omega, ?_⟩
    rw [show fuel + (k + 1) = (fuel + k) + 1 by omega]
    rw [DoLoop, he]
    simp only [hp, attemptsExhausted_false_of_nonpos r rt hr, hti0, hdn0]
    simp only [Bool.false_eq_true, if_false]
    rw [heq, show calls + 1 + k = calls + (k + 1) by omega]

/-- C16: for a retryer with `maxRetryTime ≤ 0` the attempt budget is
unlimited.  `Do` never returns `MaxRetryTimeError` (the error of the context
being some other value); and for every `m ≥ 1`, with a non-nil backoff, the
time budget not exceeded and no cancellation, an operation that fails with a
non-permanent error on its first `m` calls and succeeds on call `m + 1` is
invoked exactly `m + 1` times, `Next()` is called `m` times and `Do` returns
nil; `m + 1` iterations of fuel are enough. -/
theorem Do_unlimited_attempts {σ : Type} (next : σ → Int × σ) (r : retryer σ) (env : Env)
    (hr : r.maxRetryTime ≤ 0) :
    (∀ fuel o, (∀ i, env.done i ≠ some Err.MaxRetryTimeError) →
      Do next r env fuel = some o → o.err ≠ some Err.MaxRetryTimeError)
    ∧ (∀ (b : σ) (m : Nat), r.backoff = some b → 1 ≤ m →
        (∀ i, i < m → ∃ e, env.fn i = some e ∧ e.isPermanent = false) →
        env.fn m = none →
        (∀ i, i < m → timeExhausted r (env.since i) = false) →
        (∀ i, i < m → env.done i = none) →
        ∀ fuel, m + 1 ≤ fuel →
          (Do next r env fuel).map (fun o => (o.err, o.calls, o.nexts))
            = some (none, m + 1, m)) := by
  constructor
  · intro fuel o hctx ho
    cases hb : r.backoff with
    | none =>
      simp only [Do, hb, Option.some.injEq] at ho
      subst ho; simp
    | some b =>
      simp only [Do, hb, Option.map_eq_some'] at ho
      obtain ⟨o', ho', rfl⟩ := ho
      exact DoLoop_never_MaxRetryTimeError next r env hr hctx _ _ _ _ _ _ ho'
  · intro b m hb _ hfn hm hti hdn fuel hfuel
    obtain ⟨f, rfl⟩ : ∃ f, fuel = (f + 1) + m := ⟨fuel - (m + 1), by omega⟩
    obtain ⟨waits', rt', b', hlen, heq⟩ := DoLoop_advance_unlimited next r env hr m (f + 1) 0 []
      0 b
      (fun i hi => by simpa using hfn i hi)
      (fun i hi => by simpa using hti i hi)
      (fun i hi => by simpa using hdn i hi)
    simp only [Nat.zero_add] at heq
    simp only [Do, hb, heq, DoLoop, hm, Option.map_some', Outcome.nexts]
    simp [hlen]

/-- Witness for `Do_unlimited_attempts`: `maxRetryTime = 0`, an operation that
fails four times and then succeeds. -/
theorem Do_unlimited_attempts_witness :
    (Do zeroBackoff.Next (⟨0, 60 * Second, some ()⟩ : retryer Unit)
        ⟨fun i => if i < 4 then some (Err.other 0) else none, fun _ => 0, fun _ => none⟩
        5).map (fun o => (o.err, o.calls, o.nexts))
      = some (none, 4 + 1, 4) :=
  (Do_unlimited_attempts zeroBackoff.Next (⟨0, 60 * Second, some ()⟩ : retryer Unit)
    ⟨fun i => if i < 4 then some (Err.other 0) else none, fun _ => 0, fun _ => none⟩
    (by decide)).2 () 4 rfl (by decide)
    (fun i hi => ⟨Err.other 0, by simp [hi], rfl⟩)
    (by decide)
    (fun _ _ => (by decide : timeExhausted (⟨0, 60 * Second, some ()⟩ : retryer Unit) 0 = false))
    (fun _ _ => rfl) 5 (by decide)

theorem wrap64_le_max (x : Int) : wrap64 x ≤ 2 ^ 63 - 1 := by
  unfold wrap64
  omega

theorem DoLoop_maxInt_diverges {σ : Type} (next : σ → Int × σ) (r : retryer σ) (env : Env)
    (hr : r.maxRetryTime = MaxInt64) (ht : r.maxElapsedTime = MaxInt64)
    (hfn : ∀ i, ∃ e, env.fn i = some e ∧ e.isPermanent = false)
    (hclock : ∀ i, env.since i ≤ MaxInt64) (hdone : ∀ i, env.done i = none) :
    ∀ (fuel calls : Nat) (waits : List Int) (rt : Int) (b : σ),
      DoLoop next r env fuel calls waits rt b = none := by
  intro fuel
  induction fuel with
  | zero => intros; rfl
  | succ fuel ih =>
    intro calls waits rt b
    obtain ⟨e, he, hp⟩ := hfn calls
    have hat : attemptsExhausted r rt = false := by
      have := wrap64_le_max (rt + 1)
      simp only [attemptsExhausted, hr, MaxInt64, Bool.and_eq_false_imp, decide_eq_true_eq,
        decide_eq_false_iff_not]
      intro _
      omega
    have hti : timeExhausted r (env.since calls) = false := by
      have := hclock calls
      simp only [timeExhausted, ht, decide_eq_false_iff_not]
      omega
    rw [DoLoop]
    simp only [he, hp, hat, hti, hdone calls, Bool.false_eq_true, if_false]
    exact ih _ _ _ _

/-- C19: the code at the failing input.  With `maxRetryTime = math.MaxInt64`,
a time budget of `math.MaxInt64` nanoseconds, which no clock exceeds, the zero
backoff, no cancellation and an operation that fails with a non-permanent
error on every call, the test `retryTime+1 > r.maxRetryTime` is never true
(at `retryTime = math.MaxInt64` the sum wraps around to the smallest `int`),
and `Do` returns for no amount of fuel: the operation is invoked more than
`maxRetryTime + 1` times, without bound. -/
theorem Do_maxInt_budget_never_returns :
    ¬ ∃ fuel : Nat,
      (Do zeroBackoff.Next (⟨MaxInt64, MaxInt64, some ()⟩ : retryer Unit) alwaysFailsTicking
        fuel).isSome = true := by
  rintro ⟨fuel, h⟩
  have hnone := DoLoop_maxInt_diverges zeroBackoff.Next
    (⟨MaxInt64, MaxInt64, some ()⟩ : retryer Unit) alwaysFailsTicking rfl rfl
    (fun _ => ⟨Err.other 0, rfl, rfl⟩) (fun _ => min_le_right _ _) (fun _ => rfl) fuel 0 [] 0 ()
  simp only [Do] at h
  rw [hnone] at h
  simp at h

theorem DoLoop_terminates {σ : Type} (next : σ → Int × σ) (r : retryer σ) (env : Env)
    (n : Nat) (hn : 1 ≤ n) (hmax : (n : Int) + 1 < 2 ^ 63) (hr : r.maxRetryTime = n) :
    ∀ (d fuel calls : Nat) (waits : List Int) (rt : Int) (b : σ),
      0 ≤ rt → rt + d = n → d + 1 ≤ fuel →
      ∃ o, DoLoop next r env fuel calls waits rt b = some o
        ∧ o.calls ≤ calls + d + 1 ∧ o.waits.length ≤ waits.length + d := by
  intro d
  induction d with
  | zero =>
    intro fuel calls waits rt b h0 hrt hfuel
    obtain ⟨f, rfl⟩ : ∃ f, fuel = f + 1 := ⟨fuel - 1, by omega⟩
    have hat : attemptsExhausted r rt = true := by
      have hw : wrap64 (rt + 1) = rt + 1 := by
        apply wrap64_of_range <;> push_cast at hrt <;> omega
      simp only [attemptsExhausted, hw, hr, Bool.and_eq_true, decide_eq_true_eq]
      push_cast at hrt
      omega
    simp only [DoLoop, hat, if_true]
    cases env.fn calls with
    | none => exact ⟨_, rfl, by simp, by simp⟩
    | some e =>
      by_cases hp : e.isPermanent = true
      · simp only [hp, if_true]
        exact ⟨_, rfl, by simp, by simp⟩
      · simp only [hp, Bool.false_eq_true, if_false]
        exact ⟨_, rfl, by simp, by simp⟩
  | succ d ih =>
    intro fuel calls waits rt b h0 hrt hfuel
    obtain ⟨f, rfl⟩ : ∃ f, fuel = f + 1 := ⟨fuel - 1, by omega⟩
    have hw : wrap64 (rt + 1) = rt + 1 := by
      apply wrap64_of_range <;> push_cast at hrt <;> omega
    simp only [DoLoop, hw]
    cases env.fn calls with
    | none => exact ⟨_, rfl, by simp only []; omega, by simp⟩
    | some e =>
      by_cases hp : e.isPermanent = true
      · simp only [hp, if_true]
        exact ⟨_, rfl, by simp only []; omega, by simp⟩
      · by_cases h1 : attemptsExhausted r rt = true
        · simp only [hp, h1, Bool.false_eq_true, if_false, if_true]
          exact ⟨_, rfl, by simp only []; omega, by simp⟩
        · by_cases h2 : timeExhausted r (env.since calls) = true
          · simp only [hp, h1, h2, Bool.false_eq_true, if_false, if_true]
            exact ⟨_, rfl, by simp only []; omega, by simp⟩
          · simp only [hp, h1, h2, Bool.false_eq_true, if_false]
            cases env.done calls with
            | some ce =>
              exact ⟨_, rfl, by simp only []; omega, by simp⟩
            | none =>
              obtain ⟨o, ho, hc, hw'⟩ := ih f (calls + 1) (waits ++ [(next b).1]) (rt + 1)
                (next b).2 (by omega) (by push_cast at hrt ⊢; omega) (by omega)
              refine ⟨o, ho, by omega, ?_⟩
              simp only [List.length_append, List.length_singleton] at hw'
              omega

/-- Supporting fact for C19: below the largest `int` the attempt budget bounds
the call.  For every `n` with `1 ≤ n < 2 ^ 63 - 1`, every operation
(whatever errors it returns), every clock behaviour, every backoff and every
outcome of the wait/cancel race, `Do` with `maxRetryTime = n` returns, within
`n + 1` iterations of its loop, after at most `n + 1` invocations of the
operation and at most `n` calls of `Next()`. -/
theorem Do_terminates_within_budget {σ : Type} (next : σ → Int × σ) (r : retryer σ)
    (env : Env) (n : Nat) (hn : 1 ≤ n) (hmax : (n : Int) + 1 < 2 ^ 63)
    (hr : r.maxRetryTime = n) (fuel : Nat) (hfuel : n + 1 ≤ fuel) :
    ∃ o, Do next r env fuel = some o ∧ o.calls ≤ n + 1 ∧ o.nexts ≤ n := by
  cases hb : r.backoff with
  | none =>
    exact ⟨⟨some Err.noBackoff, 0, [], 0, none⟩, by simp only [Do, hb], by simp,
      by simp [Outcome.nexts]⟩
  | some b =>
    obtain ⟨o, ho, hc, hw⟩ := DoLoop_terminates next r env n hn hmax hr n fuel 0 [] 0 b
      (le_refl _) (by simp) hfuel
    refine ⟨⟨o.err, o.calls, o.waits, o.retryTime, some o.backoff⟩, ?_, ?_, ?_⟩
    · simp only [Do, hb, ho, Option.map_some']
    · simpa using hc
    · simpa [Outcome.nexts] using hw

/-- Witness for `Do_terminates_within_budget`: `n = 3`, the stop backoff, an
operation that always fails. -/
theorem Do_terminates_within_budget_witness :
    ∃ o, Do stopBackoff.Next (⟨3, 60 * Second, some ()⟩ : retryer Unit) alwaysFails 4 = some o
      ∧ o.calls ≤ 3 + 1 ∧ o.nexts ≤ 3 :=
  Do_terminates_within_budget stopBackoff.Next (⟨3, 60 * Second, some ()⟩ : retryer Unit)
    alwaysFails 3 (by decide) (by decide) rfl 4 (by decide)

end Retry

namespace Retry

/-! ## The cursor rule -/

/-- The cursor rule where `float64` is exact: for a finite multiplier `q > 0`,
a cursor and a `maxInterval` between 0 and `2 ^ 53` nanoseconds and an exact
product `currentInterval * q` that is an integer of at most `2 ^ 53`, a call of
`Next()` computes the value it returns from the cursor as it is before the
call and advances the cursor to `min(currentInterval * q, maxInterval)`. -/
theorem Next_advances_cursor_exact (b : exponentialBackoff) (draw q : ℚ) (p : Int)
    (hq : b.multiplier = F64.Value.fin q) (hq0 : 0 < q)
    (h0 : 0 ≤ b.currentInterval) (hI : b.currentInterval ≤ 2 ^ 53)
    (hM0 : 0 ≤ b.maxInterval) (hM : b.maxInterval ≤ 2 ^ 53)
    (hp : (b.currentInterval : ℚ) * q = p) (hp53 : p ≤ 2 ^ 53) :
    (b.Next draw).1 = b.getRandomizationInterval draw
    ∧ ((b.Next draw).2.currentInterval : ℚ) = specAdvance b.currentInterval q b.maxInterval := by
  refine ⟨rfl, ?_⟩
  have hMq : F64.Value.ofInt b.maxInterval = F64.Value.fin (b.maxInterval : ℚ) := by
    simp only [F64.Value.ofInt, F64.ofInt_exact _ hM0 hM]
  have hIq : F64.Value.ofInt b.currentInterval = F64.Value.fin (b.currentInterval : ℚ) := by
    simp only [F64.Value.ofInt, F64.ofInt_exact _ h0 hI]
  have hp0 : 0 ≤ p := by
    have : (0 : ℚ) ≤ (p : ℚ) := by
      rw [← hp]; exact mul_nonneg (by exact_mod_cast h0) hq0.le
    exact_mod_cast this
  have hmul : F64.mul (b.currentInterval : ℚ) q = (p : ℚ) := by
    unfold F64.mul
    rw [hp]
    exact F64.ofInt_exact p hp0 hp53
  have hpq0 : (0 : ℚ) ≤ (p : ℚ) := by exact_mod_cast hp0
  have hpq53 : (p : ℚ) ≤ 2 ^ 53 := by exact_mod_cast hp53
  have hsmall : ¬ ((2 : ℚ) ^ 1024 ≤ (p : ℚ)) := by
    intro h
    have : (2 : ℚ) ^ 53 < 2 ^ 1024 := by norm_num
    linarith
  have hneg : ¬ ((p : ℚ) ≤ -2 ^ 1024) := by
    intro h
    have : (0 : ℚ) < 2 ^ 1024 := by positivity
    linarith
  have hprod : (F64.Value.ofInt b.currentInterval).mul b.multiplier = F64.Value.fin (p : ℚ) := by
    rw [hIq, hq]
    simp only [F64.Value.mul, hmul, F64.Value.ofRounded, hsmall, hneg, if_false]
  have hto : F64.toInt64 (p : ℚ) = p := by
    have := toInt64_of_bounds (p : ℚ) p p hp0 hp53 (le_refl _) (le_refl _)
    omega
  simp only [exponentialBackoff.Next, exponentialBackoff.incrementCurrentInterval, hprod, hMq,
    F64.Value.lt, decide_eq_true_eq, F64.Value.toInt64, hto]
  unfold specAdvance
  rw [hp]
  split_ifs with hgt
  · simp only
    rw [min_eq_right hgt.le]
  · simp only
    rw [min_eq_left (not_lt.mp hgt)]

/-- C18 fails where `float64` rounds `maxInterval`: with
`baseInterval = 2 ^ 52 + 2`, `multiplier = 2` and `maxInterval = 2 ^ 53 + 3`
nanoseconds, `float64(maxInterval)` is `2 ^ 53 + 4`, the product `2 ^ 53 + 4`
is not greater than it, and the first call of `Next()` advances the cursor to
`2 ^ 53 + 4`, which is above `maxInterval` and is not
`min(currentInterval * multiplier, maxInterval) = 2 ^ 53 + 3`. -/
theorem Next_cursor_passes_maxInterval :
    (NewExponentialBackoff
        [exponentialBackoffOption.WithBaseInterval 4503599627370498,
          exponentialBackoffOption.WithMaxInterval 9007199254740995,
          exponentialBackoffOption.WithMultiplier 2]).currentInterval = 4503599627370498
    ∧ (NewExponentialBackoff
        [exponentialBackoffOption.WithBaseInterval 4503599627370498,
          exponentialBackoffOption.WithMaxInterval 9007199254740995,
          exponentialBackoffOption.WithMultiplier 2]).maxInterval = 9007199254740995
    ∧ (((NewExponentialBackoff
        [exponentialBackoffOption.WithBaseInterval 4503599627370498,
          exponentialBackoffOption.WithMaxInterval 9007199254740995,
          exponentialBackoffOption.WithMultiplier 2]).Next 0).2.currentInterval
      = 9007199254740996)
    ∧ specAdvance 4503599627370498 2 9007199254740995 = 9007199254740995
    ∧ ¬ ((((NewExponentialBackoff
        [exponentialBackoffOption.WithBaseInterval 4503599627370498,
          exponentialBackoffOption.WithMaxInterval 9007199254740995,
          exponentialBackoffOption.WithMultiplier 2]).Next 0).2.currentInterval : ℚ)
      = specAdvance 4503599627370498 2 9007199254740995) := by
  decide!

end Retry

namespace Goalong

/-! ## Panics, non-positive limits, and the send after `close` -/

/-- Supporting fact for C11: for every `limit ≥ 1`, every list of tasks
(returning, panicking, blocking or nil) and every schedule, the caller never
panics; the counter of `wg` is the number of tasks whose goroutine has not yet
called `wg.Done()`, each goroutine calling it once; while the pool is in
service each started goroutine holds exactly one permit until its send; and
when the call has returned every task function has been called once and is
over. -/
theorem panics_are_contained (c : Call) (sched : List Choice) (hl : 1 ≤ c.limit) :
    (exec c sched State.init).pc ≠ MainPc.panicked
    ∧ ((exec c sched State.init).pc ≠ MainPc.init →
        (exec c sched State.init).wg
          = ((c.fns.length - (exec c sched State.init).tasks.length : Nat) : Int)
            + (total Task.pending (exec c sched State.init).tasks : Nat))
    ∧ ((exec c sched State.init).inService = true →
        (((exec c sched State.init).held + (exec c sched State.init).buf : Nat) : Int)
          = c.limit)
    ∧ ((exec c sched State.init).pc = MainPc.returned →
        (exec c sched State.init).tasks.length = c.fns.length
        ∧ ∀ t, t ∈ (exec c sched State.init).tasks →
            t.runs = 1 ∧ (t.phase = Phase.exited ∨ ∃ p, t.phase = Phase.doneWg p)) := by
  have hI := Inv_exec c (by omega) sched State.init (Inv_init c)
  exact ⟨hI.notPanicked, hI.wg_eq, hI.permits_eq, Inv_returned c _ hI⟩

/-- C11: the code at the failing input.  With `limit = 2` and three tasks (one
returns, one panics, one is nil), in the schedule where the caller passes
`wg.Wait()` and closes `ch` right after the last `wg.Done()`: the goroutine of
the nil task, whose call panicked, is then still before its send; its send
hits the closed channel and puts nothing back.  In the end all three
goroutines are over and `ch` holds one permit out of two: the third task
released none. -/
theorem permit_not_released_after_close :
    exec sampleCall sampleScheduleReturned State.init
      = ⟨MainPc.returned, 1, true, 0,
          [⟨Phase.exited, 1, 0⟩, ⟨Phase.exited, 1, 1⟩, ⟨Phase.doneWg true, 1, 0⟩]⟩
    ∧ exec sampleCall (sampleScheduleReturned ++ [Choice.task 2]) State.init
      = ⟨MainPc.returned, 1, true, 0,
          [⟨Phase.exited, 1, 0⟩, ⟨Phase.exited, 1, 1⟩, ⟨Phase.exited, 1, 1⟩]⟩ := by
  decide

/-- C20: the code at the failing input.  With `limit = 1` and one task that
returns normally: the deferred function calls `wg.Done()` before it sends, so
the caller can pass `wg.Wait()` and close `ch` while the goroutine is between
the two; the send then panics on the closed channel, the handler of
`goWithRecover` catches the panic and writes one error record for a task that
finished successfully. -/
theorem send_after_close_is_logged :
    exec raceCall (raceSchedule.take 11) State.init
      = ⟨MainPc.returned, 0, true, 0, [⟨Phase.doneWg false, 1, 0⟩]⟩
    ∧ exec raceCall raceSchedule State.init
      = ⟨MainPc.returned, 0, true, 0, [⟨Phase.exited, 1, 1⟩]⟩ := by
  decide

/-- C9: the code at the failing input.  With `limit = 1` and one task that
returns normally, in the schedule where the caller passes `wg.Wait()` and
closes `ch` between the `wg.Done()` and the send of the goroutine: before its
send the goroutine holds the only permit (1 held, 0 in `ch`); the send hits
the closed channel and puts nothing back, and from then on no permit is held
and none is available, so that held plus available is 0 and not
`limit = 1`. -/
theorem permit_count_drops_after_close :
    raceCall.limit = 1
    ∧ (exec raceCall (raceSchedule.take 11) State.init).held = 1
    ∧ (exec raceCall (raceSchedule.take 11) State.init).buf = 0
    ∧ (exec raceCall raceSchedule State.init).held = 0
    ∧ (exec raceCall raceSchedule State.init).buf = 0
    ∧ ¬ ((((exec raceCall raceSchedule State.init).held
            + (exec raceCall raceSchedule State.init).buf : Nat) : Int) = raceCall.limit) := by
  decide

theorem Stalled_step (c : Call) (hl : c.limit ≤ 0) (hN : c.fns ≠ []) (s s' : State)
    (ch : Choice) (hS : Stalled c s) (hs : step c s ch = some s') : Stalled c s' := by
  obtain ⟨pc, buf, closed, wg, tasks⟩ := s
  obtain ⟨ht, hb, hc, hpc⟩ := hS
  simp only at ht hb hc hpc
  subst ht hb hc
  have hlen : 0 < c.fns.length := List.length_pos.mpr hN
  cases ch with
  | task k => simp [step] at hs
  | main =>
    simp only [step] at hs
    rcases hpc with rfl | ⟨_, rfl⟩ | ⟨h0, rfl | rfl⟩
    · simp only [stepMain] at hs
      split_ifs at hs with hneg
      · simp only [Option.some.injEq] at hs
        subst hs
        exact ⟨rfl, rfl, rfl, Or.inr (Or.inl ⟨hneg, rfl⟩)⟩
      · simp only [Option.some.injEq] at hs
        subst hs
        exact ⟨rfl, rfl, rfl, Or.inr (Or.inr ⟨by omega, Or.inl rfl⟩)⟩
    · simp [stepMain] at hs
    · simp only [stepMain, h0, Nat.cast_zero, lt_self_iff_false, if_false,
        Option.some.injEq] at hs
      subst hs
      exact ⟨rfl, rfl, rfl, Or.inr (Or.inr ⟨h0, Or.inr rfl⟩)⟩
    · simp [stepMain, hlen] at hs

theorem Stalled_exec (c : Call) (hl : c.limit ≤ 0) (hN : c.fns ≠ []) (sched : List Choice) :
    ∀ s, Stalled c s → Stalled c (exec c sched s) := by
  induction sched with
  | nil => intro s hS; exact hS
  | cons ch rest ih =>
    intro s hS
    simp only [exec]
    cases hs : step c s ch with
    | none => exact ih s hS
    | some s' => exact ih s' (Stalled_step c hl hN s s' ch hS hs)

theorem exec_of_no_step (c : Call) (s : State) (hs : ∀ ch, step c s ch = none)
    (sched : List Choice) : exec c sched s = s := by
  induction sched with
  | nil => rfl
  | cons ch rest ih => simp only [exec, hs ch]; exact ih

theorem no_step_panicked (c : Call) (buf : Nat) (closed : Bool) (wg : Int) (ch : Choice) :
    step c ⟨MainPc.panicked, buf, closed, wg, []⟩ ch = none := by
  cases ch <;> simp [step, stepMain]

theorem no_step_first_receive (c : Call) (hN : c.fns ≠ []) (wg : Int) (ch : Choice) :
    step c ⟨MainPc.acquire 0, 0, false, wg, []⟩ ch = none := by
  have hlen : 0 < c.fns.length := List.length_pos.mpr hN
  cases ch <;> simp [step, stepMain, hlen]

/-- C17, as stated, fails: `limit` is not clamped.  With `limit = -1` and one
task the first action of the caller is the panic of `make`; with `limit = 0`
and one task the caller is still at its first receive after any number of
further actions, here four of its own and one attempt of the task, and no
goroutine has been started. -/
theorem C17_counterexample :
    (exec ⟨-1, [TaskKind.returns]⟩ [Choice.main] State.init).pc = MainPc.panicked
    ∧ exec ⟨0, [TaskKind.returns]⟩
        [Choice.main, Choice.main, Choice.main, Choice.main, Choice.task 0, Choice.main,
          Choice.main] State.init
      = ⟨MainPc.acquire 0, 0, false, 1, []⟩ := by
  decide

/-- C17, amended: `GoWaitsWithLimit` uses `limit` as it is given.  For every
`limit ≤ 0` and every non-empty list of tasks, in every schedule no task is
ever started and the call never returns: for `limit < 0` the first action of
the caller is the panic of `make(chan struct\x7b\x7d, limit)`; for `limit = 0`
the caller reaches its first receive from `ch` after two actions and stays
there for ever, `ch` being empty with nobody to send. -/
theorem nonpositive_limit_runs_nothing (c : Call) (sched : List Choice)
    (hl : c.limit ≤ 0) (hN : c.fns ≠ []) :
    (exec c sched State.init).tasks = []
    ∧ (exec c sched State.init).pc ≠ MainPc.returned
    ∧ (c.limit < 0 → (exec c (Choice.main :: sched) State.init).pc = MainPc.panicked)
    ∧ (c.limit = 0 →
        (exec c (Choice.main :: Choice.main :: sched) State.init).pc
          = MainPc.acquire 0) := by
  have hinit : Stalled c State.init := ⟨rfl, rfl, rfl, Or.inl rfl⟩
  have hS := Stalled_exec c hl hN sched State.init hinit
  refine ⟨hS.1, ?_, ?_, ?_⟩
  · obtain ⟨_, _, _, h | ⟨_, h⟩ | ⟨_, h | h⟩⟩ := hS <;> rw [h] <;> simp
  · intro hneg
    have h1 : step c State.init Choice.main = some ⟨MainPc.panicked, 0, false, 0, []⟩ := by
      simp [step, stepMain, State.init, hneg]
    simp only [exec, h1]
    rw [exec_of_no_step c _ (no_step_panicked c 0 false 0) sched]
  · intro h0
    have h1 : step c State.init Choice.main
        = some ⟨MainPc.fill 0, 0, false, (0 : Int) + c.fns.length, []⟩ := by
      simp [step, stepMain, State.init, h0]
    have h2 : step c ⟨MainPc.fill 0, 0, false, (0 : Int) + c.fns.length, []⟩ Choice.main
        = some ⟨MainPc.acquire 0, 0, false, (0 : Int) + c.fns.length, []⟩ := by
      simp [step, stepMain, h0]
    simp only [exec, h1, h2]
    rw [exec_of_no_step c _ (no_step_first_receive c hN _) sched]

/-- Witness for `nonpositive_limit_runs_nothing`: `limit = 0` and the three
sample tasks, under the schedule that lets `sampleCall` return. -/
theorem nonpositive_limit_runs_nothing_witness :
    (exec ⟨0, sampleCall.fns⟩ sampleScheduleReturned State.init).tasks = []
    ∧ (exec ⟨0, sampleCall.fns⟩ sampleScheduleReturned State.init).pc ≠ MainPc.returned
    ∧ ((0 : Int) < 0 →
        (exec ⟨0, sampleCall.fns⟩ (Choice.main :: sampleScheduleReturned) State.init).pc
          = MainPc.panicked)
    ∧ ((0 : Int) = 0 →
        (exec ⟨0, sampleCall.fns⟩
          (Choice.main :: Choice.main :: sampleScheduleReturned) State.init).pc
          = MainPc.acquire 0) :=
  nonpositive_limit_runs_nothing ⟨0, sampleCall.fns⟩ sampleScheduleReturned (by decide)
    (by decide)

end Goalong

namespace Goalong

/-! ## Progress: with `limit ≥ 1` the call can always go on to return -/

theorem exec_append (c : Call) (a b : List Choice) :
    ∀ s, exec c (a ++ b) s = exec c b (exec c a s) := by
  induction a with
  | nil => intro s; rfl
  | cons ch rest ih =>
    intro s
    simp only [List.cons_append, exec]
    cases step c s ch with
    | none => exact ih s
    | some s' => exact ih s'

theorem RunningNotNil_step (c : Call) (s s' : State) (ch : Choice) (hR : RunningNotNil c s)
    (hs : step c s ch = some s') : RunningNotNil c s' := by
  cases ch with
  | main =>
    simp only [step, stepMain] at hs
    cases hpc : s.pc with
    | spawn j =>
      simp only [hpc, Option.some.injEq] at hs
      subst hs
      intro k t hk hrun
      simp only at hk
      by_cases hlt : k < s.tasks.length
      · rw [List.getElem?_append_left hlt] at hk
        exact hR k t hk hrun
      · rw [List.getElem?_append_right (not_lt.mp hlt)] at hk
        have : t = ⟨Phase.ready, 0, 0⟩ := by
          cases hidx : k - s.tasks.length with
          | zero => rw [hidx] at hk; simpa using hk.symm
          | succ m => rw [hidx] at hk; simp at hk
        rw [this] at hrun
        simp at hrun
    | init =>
      simp only [hpc] at hs
      split_ifs at hs <;>
        (simp only [Option.some.injEq] at hs
         subst hs
         exact fun k t hk hrun => hR k t hk hrun)
    | fill i =>
      simp only [hpc] at hs
      split_ifs at hs <;>
        (simp only [Option.some.injEq] at hs
         subst hs
         exact fun k t hk hrun => hR k t hk hrun)
    | acquire j =>
      simp only [hpc] at hs
      split_ifs at hs <;>
        (simp only [Option.some.injEq] at hs
         subst hs
         exact fun k t hk hrun => hR k t hk hrun)
    | wait =>
      simp only [hpc] at hs
      split_ifs at hs
      simp only [Option.some.injEq] at hs
      subst hs
      exact fun k t hk hrun => hR k t hk hrun
    | closing =>
      simp only [hpc] at hs
      split_ifs at hs <;>
        (simp only [Option.some.injEq] at hs
         subst hs
         exact fun k t hk hrun => hR k t hk hrun)
    | returned => simp [hpc] at hs
    | panicked => simp [hpc] at hs
  | task k =>
    simp only [step] at hs
    cases hkind : c.fns[k]? with
    | none => simp [hkind] at hs
    | some kind =>
      cases ht : s.tasks[k]? with
      | none => simp [hkind, ht] at hs
      | some t =>
        simp only [hkind, ht] at hs
        -- every branch of `stepTask` replaces the task number `k`
        have key : ∀ t' : Task, (t'.phase = Phase.running → kind ≠ TaskKind.nilFunc) →
            ∀ (wg' : Int) (buf' : Nat),
              RunningNotNil c { s with tasks := s.tasks.set k t', wg := wg', buf := buf' } := by
          intro t' ht' wg' buf' k' t'' hk' hrun
          simp only [List.getElem?_set] at hk'
          by_cases hkk : k = k'
          · subst hkk
            simp only [if_true] at hk'
            split_ifs at hk' with hlt
            simp only [Option.some.injEq] at hk'
            subst hk'
            rw [hkind]
            intro h
            simp only [Option.some.injEq] at h
            exact ht' hrun h
          · simp only [hkk, if_false] at hk'
            exact hR k' t'' hk' hrun
        obtain ⟨phase, runs, logs⟩ := t
        cases phase with
        | ready =>
          cases kind <;> simp only [stepTask, Option.some.injEq] at hs <;> subst hs
          · exact key _ (by simp) s.wg s.buf
          · exact key _ (by simp) s.wg s.buf
          · exact key _ (by simp) s.wg s.buf
          · exact key _ (by simp) s.wg s.buf
        | running =>
          cases kind <;> simp only [stepTask, Option.some.injEq] at hs
          · subst hs; exact key _ (by simp) s.wg s.buf
          · subst hs; exact key _ (by simp) s.wg s.buf
          · exact absurd hs (by simp)
          · exact absurd hs (by simp)
        | finished p =>
          simp only [stepTask] at hs
          split_ifs at hs <;> simp only [Option.some.injEq] at hs <;> subst hs
          · exact key _ (by simp) _ s.buf
          · exact key _ (by simp) _ s.buf
        | doneWg p =>
          simp only [stepTask] at hs
          split_ifs at hs <;>
            (simp only [Option.some.injEq] at hs
             subst hs
             exact key _ (by simp) _ _)
        | exited => simp [stepTask] at hs

theorem RunningNotNil_exec (c : Call) (sched : List Choice) :
    ∀ s, RunningNotNil c s → RunningNotNil c (exec c sched s) := by
  induction sched with
  | nil => intro s hR; exact hR
  | cons ch rest ih =>
    intro s hR
    simp only [exec]
    cases hs : step c s ch with
    | none => exact ih s hR
    | some s' => exact ih s' (RunningNotNil_step c s s' ch hR hs)

theorem rank_stepMain (c : Call) (s s' : State) (h0 : 0 ≤ c.limit) (hI : Inv c s)
    (hs : stepMain c s = some s') : s'.rank c < s.rank c := by
  obtain ⟨pc, buf, closed, wg, tasks⟩ := s
  have hsp := hI.spawn_lt
  simp only at hsp
  cases pc with
  | init =>
    simp only [stepMain, not_lt.mpr h0, if_false, Option.some.injEq] at hs
    subst hs
    simp only [State.rank, rankMain]
    omega
  | fill i =>
    simp only [stepMain] at hs
    split_ifs at hs with h1 h2 h3 <;> simp only [Option.some.injEq] at hs <;> subst hs <;>
      simp only [State.rank, rankMain] <;> omega
  | acquire j =>
    simp only [stepMain] at hs
    split_ifs at hs with h1 h2 h3 <;> simp only [Option.some.injEq] at hs <;> subst hs <;>
      simp only [State.rank, rankMain] <;> omega
  | spawn j =>
    have hj := hsp j rfl
    simp only [stepMain, Option.some.injEq] at hs
    subst hs
    simp only [State.rank, rankMain, total_append]
    have h4 : total Task.rank [(⟨Phase.ready, 0, 0⟩ : Task)] = 4 := rfl
    rw [h4]
    omega
  | wait =>
    simp only [stepMain] at hs
    split_ifs at hs
    simp only [Option.some.injEq] at hs
    subst hs
    simp only [State.rank, rankMain]
    omega
  | closing =>
    simp only [stepMain] at hs
    split_ifs at hs <;> simp only [Option.some.injEq] at hs <;> subst hs <;>
      simp only [State.rank, rankMain] <;> omega
  | returned => simp [stepMain] at hs
  | panicked => simp [stepMain] at hs

theorem rank_stepTask (c : Call) (s s' : State) (k : Nat) (kind : TaskKind) (t : Task)
    (hk : s.tasks[k]? = some t) (hs : stepTask c s k kind t = some s') :
    s'.rank c < s.rank c := by
  have key : ∀ (t' : Task) (wg' : Int) (buf' : Nat), t'.rank < t.rank →
      State.rank c { s with tasks := s.tasks.set k t', wg := wg', buf := buf' } < s.rank c := by
    intro t' wg' buf' hlt
    have := total_set Task.rank s.tasks k t t' hk
    simp only [State.rank]
    omega
  obtain ⟨phase, runs, logs⟩ := t
  cases phase with
  | ready =>
    cases kind <;> simp only [stepTask, Option.some.injEq] at hs <;> subst hs <;>
      exact key _ s.wg s.buf (by simp [Task.rank])
  | running =>
    cases kind <;> simp only [stepTask, Option.some.injEq] at hs
    · subst hs; exact key _ s.wg s.buf (by simp [Task.rank])
    · subst hs; exact key _ s.wg s.buf (by simp [Task.rank])
    · exact absurd hs (by simp)
    · exact absurd hs (by simp)
  | finished p =>
    simp only [stepTask] at hs
    split_ifs at hs <;>
      (simp only [Option.some.injEq] at hs
       subst hs
       exact key _ _ s.buf (by simp [Task.rank]))
  | doneWg p =>
    simp only [stepTask] at hs
    split_ifs at hs <;>
      (simp only [Option.some.injEq] at hs
       subst hs
       exact key _ _ _ (by simp [Task.rank]))
  | exited => simp [stepTask] at hs

theorem rank_step (c : Call) (s s' : State) (ch : Choice) (h0 : 0 ≤ c.limit) (hI : Inv c s)
    (hs : step c s ch = some s') : s'.rank c < s.rank c := by
  cases ch with
  | main => exact rank_stepMain c s s' h0 hI hs
  | task k =>
    simp only [step] at hs
    cases hkind : c.fns[k]? with
    | none => simp [hkind] at hs
    | some kind =>
      cases ht : s.tasks[k]? with
      | none => simp [hkind, ht] at hs
      | some t =>
        simp only [hkind, ht] at hs
        exact rank_stepTask c s s' k kind t ht hs

theorem exists_of_total_pos (f : Task → Nat) :
    ∀ ts : List Task, 1 ≤ total f ts → ∃ (k : Nat) (t : Task), ts[k]? = some t ∧ 1 ≤ f t := by
  intro ts
  induction ts with
  | nil => intro h; simp [total] at h
  | cons a ts ih =>
    intro h
    by_cases ha : 1 ≤ f a
    · exact ⟨0, a, by simp, ha⟩
    · have : 1 ≤ total f ts := by
        simp only [total, List.map_cons, List.sum_cons] at h ⊢
        omega
      obtain ⟨k, t, hk, ht⟩ := ih this
      exact ⟨k + 1, t, by simpa using hk, ht⟩

theorem task_step_exists (c : Call) (s : State) (k : Nat) (t : Task)
    (hk : s.tasks[k]? = some t) (hlen : s.tasks.length ≤ c.fns.length)
    (hnb : ∀ kind, kind ∈ c.fns → kind ≠ TaskKind.blocks) (hR : RunningNotNil c s)
    (hph : t.phase ≠ Phase.exited)
    (hsend : ∀ p, t.phase = Phase.doneWg p → s.closed = true ∨ (s.buf : Int) < c.limit) :
    ∃ s', step c s (Choice.task k) = some s' := by
  have hklt : k < s.tasks.length := (List.getElem?_eq_some_iff.mp hk).1
  have hkN : k < c.fns.length := by omega
  obtain ⟨kind, hkind⟩ : ∃ kind, c.fns[k]? = some kind :=
    ⟨c.fns[k], List.getElem?_eq_getElem hkN⟩
  have hmem : kind ∈ c.fns := List.getElem?_mem hkind
  have hnbk := hnb kind hmem
  simp only [step, hkind, hk]
  obtain ⟨phase, runs, logs⟩ := t
  cases phase with
  | ready => cases kind <;> exact ⟨_, rfl⟩
  | running =>
    have hnn := hR k _ hk rfl
    rw [hkind] at hnn
    cases kind with
    | returns => exact ⟨_, rfl⟩
    | panics => exact ⟨_, rfl⟩
    | blocks => exact absurd rfl hnbk
    | nilFunc => exact absurd rfl hnn
  | finished p =>
    simp only [stepTask]
    split_ifs <;> exact ⟨_, rfl⟩
  | doneWg p =>
    simp only [stepTask]
    rcases hsend p rfl with hc | hb
    · rw [if_pos hc]; exact ⟨_, rfl⟩
    · by_cases hc : s.closed = true
      · rw [if_pos hc]; exact ⟨_, rfl⟩
      · rw [if_neg hc, if_pos hb]; exact ⟨_, rfl⟩
  | exited => exact absurd rfl hph

/-- With `limit ≥ 1` and no task that blocks for ever, a call that has not
returned is never stuck: the caller or one of the goroutines can act. -/
theorem exists_step (c : Call) (s : State) (hl : 1 ≤ c.limit)
    (hnb : ∀ kind, kind ∈ c.fns → kind ≠ TaskKind.blocks)
    (hI : Inv c s) (hR : RunningNotNil c s) (hret : s.pc ≠ MainPc.returned) :
    ∃ ch s', step c s ch = some s' := by
  have hlenN : s.tasks.length ≤ c.fns.length := by
    rw [hI.length_eq]; exact hI.started_le
  have hcl : s.closed = false := by
    cases h : s.closed with
    | false => rfl
    | true => exact absurd (hI.closed_iff.mp h) hret
  cases hpc : s.pc with
  | init =>
    refine ⟨Choice.main, ?_⟩
    simp only [step, stepMain, hpc]
    split_ifs <;> exact ⟨_, rfl⟩
  | fill i =>
    refine ⟨Choice.main, ?_⟩
    obtain ⟨hb, _⟩ := hI.fill_buf i hpc
    simp only [step, stepMain, hpc, hcl, hb]
    split_ifs <;> exact ⟨_, rfl⟩
  | acquire j =>
    by_cases hj : j < c.fns.length
    · by_cases hb : 0 < s.buf
      · refine ⟨Choice.main, ?_⟩
        simp only [step, stepMain, hpc, hj, hb, if_true]
        exact ⟨_, rfl⟩
      · have hper := hI.permits_eq (by simp [State.inService, hcl, hpc])
        have hheld : 1 ≤ total Task.holding s.tasks := by
          simp only [State.held, hpc] at hper
          omega
        obtain ⟨k, t, hk, ht⟩ := exists_of_total_pos Task.holding s.tasks hheld
        obtain ⟨s', hs'⟩ := task_step_exists c s k t hk hlenN hnb hR
          (by intro h; simp [Task.holding, h] at ht)
          (fun p _ => Or.inr (by omega))
        exact ⟨Choice.task k, s', hs'⟩
    · refine ⟨Choice.main, ?_⟩
      simp only [step, stepMain, hpc, hj, if_false]
      exact ⟨_, rfl⟩
  | spawn j =>
    exact ⟨Choice.main, by simp only [step, stepMain, hpc]; exact ⟨_, rfl⟩⟩
  | wait =>
    by_cases hw : s.wg = 0
    · refine ⟨Choice.main, ?_⟩
      simp only [step, stepMain, hpc, hw, if_true]
      exact ⟨_, rfl⟩
    · have hwg := hI.wg_eq (by rw [hpc]; simp)
      have hlen : s.tasks.length = c.fns.length := by
        have := hI.length_eq
        rw [hpc] at this
        simpa [started] using this
      have hpend : 1 ≤ total Task.pending s.tasks := by omega
      obtain ⟨k, t, hk, ht⟩ := exists_of_total_pos Task.pending s.tasks hpend
      obtain ⟨s', hs'⟩ := task_step_exists c s k t hk hlenN hnb hR
        (by intro h; simp [Task.pending, h] at ht)
        (by intro p h; simp [Task.pending, h] at ht)
      exact ⟨Choice.task k, s', hs'⟩
  | closing =>
    refine ⟨Choice.main, ?_⟩
    simp only [step, stepMain, hpc]
    split_ifs <;> exact ⟨_, rfl⟩
  | returned => exact absurd hpc hret
  | panicked => exact absurd hpc hI.notPanicked

theorem exists_extension (c : Call) (hl : 1 ≤ c.limit)
    (hnb : ∀ kind, kind ∈ c.fns → kind ≠ TaskKind.blocks) :
    ∀ (n : Nat) (s : State), s.rank c ≤ n → Inv c s → RunningNotNil c s →
      ∃ ext, (exec c ext s).pc = MainPc.returned := by
  intro n
  induction n with
  | zero =>
    intro s hn hI hR
    by_cases hret : s.pc = MainPc.returned
    · exact ⟨[], hret⟩
    · obtain ⟨ch, s', hs⟩ := exists_step c s hl hnb hI hR hret
      have := rank_step c s s' ch (by omega) hI hs
      omega
  | succ n ih =>
    intro s hn hI hR
    by_cases hret : s.pc = MainPc.returned
    · exact ⟨[], hret⟩
    · obtain ⟨ch, s', hs⟩ := exists_step c s hl hnb hI hR hret
      have hlt := rank_step c s s' ch (by omega) hI hs
      obtain ⟨ext, hext⟩ := ih s' (by omega) (Inv_step c s s' ch (by omega) hI hs)
        (RunningNotNil_step c s s' ch hR hs)
      exact ⟨ch :: ext, by simp only [exec, hs]; exact hext⟩

/-- Supporting fact for C11: with `limit ≥ 1` and tasks that return, panic or
are nil (none blocks for ever), whatever has happened so far the call can
still run to its return: every schedule has a continuation after which
`GoWaitsWithLimit` has returned, hence (`panics_are_contained`) after which
every task function has been called.  A panic never leaves the call stuck. -/
theorem can_always_return (c : Call) (sched : List Choice) (hl : 1 ≤ c.limit)
    (hnb : ∀ kind, kind ∈ c.fns → kind ≠ TaskKind.blocks) :
    ∃ ext, (exec c (sched ++ ext) State.init).pc = MainPc.returned := by
  have hI := Inv_exec c (by omega) sched State.init (Inv_init c)
  have hR : RunningNotNil c State.init := by
    intro k t hk
    simp [State.init] at hk
  have hR' := RunningNotNil_exec c sched State.init hR
  obtain ⟨ext, hext⟩ := exists_extension c hl hnb _ _ (le_refl _) hI hR'
  exact ⟨ext, by rw [exec_append]; exact hext⟩

end Goalong
